import Mathlib

/-!
Verification of the entity-subgraph cloner (`cloner.py`).

The Python program is embedded shallowly:

* `Entity` stores the id, name, optional description and the set of
  outgoing links.  Python keeps `children` as a `set` of `Entity`
  references whose equality and hash use only `(entity_id, name,
  description)`; within one graph ids are unique, so membership in that
  set is exactly membership of the child id.  We therefore represent
  `children` as a duplicate-free `List Int` of child ids, in insertion
  order (set iteration order is insignificant, per the program).
* `EntityGraph` mirrors the Python class: `start`, the insertion-ordered
  id-keyed entity table (a Python `dict`), and the `start_parents` set.
* Failing operations (`raise` in Python) return `Except CloneErr`.
* The two unbounded loops of the program (`generate_id`'s `while` and the
  BFS `while not queue.empty()`) are written with an explicit amount of
  fuel that is computed from the graphs at the call site and proved
  sufficient, keeping every definition executable by `decide`/`rfl`.
-/

/-- Record emitted by `Entity.to_dict`: `description` is present only when
the Python value is truthy (non-`None`, non-empty). `none` models the
absent key. -/
structure EntityRecord where
  entity_id : Int
  name : String
  description : Option String
deriving Repr, DecidableEq

/-- A `{'from': ..., 'to': ...}` link record; `frm` and `dst` stand for
the Python keys `"from"` and `"to"` (Lean keywords). -/
structure LinkRec where
  frm : Int
  dst : Int
deriving Repr, DecidableEq

/-- The `{'entities': [...], 'links': [...]}` data record consumed by
`build_from_data` and produced by `to_dict` / `construct_output`. -/
structure GraphRecord where
  entities : List EntityRecord
  links : List LinkRec
deriving Repr, DecidableEq

/-- The exceptions of the program.  `duplicateEntity` is the `ValueError`
of `add_entity`, `unknownEntity` the `LookupError` of `add_link`,
`missingStart` the `ValueError` of `build_from_data`, `startAbsent` the
`AttributeError` hit when `get_start()` returns `None` and its attributes
are read, `keyError` a failing `visited[...]` dictionary lookup, and
`outOfFuel` signals loop-bound exhaustion (proved unreachable). -/
inductive CloneErr where
  | duplicateEntity (id : Int)
  | unknownEntity (id : Int)
  | missingStart (id : Int)
  | startAbsent
  | keyError (id : Int)
  | outOfFuel
deriving Repr, DecidableEq

deriving instance DecidableEq for Except

/-- `Entity`: id, name, optional description and outgoing links
(duplicate-free list of child ids, see the header comment). -/
structure Entity where
  entity_id : Int
  name : String
  description : Option String
  children : List Int
deriving Repr, DecidableEq

namespace Entity

/-- `Entity.to_dict`: the `description` key is emitted only when the
Python attribute is truthy, i.e. not `None` and not the empty string. -/
def to_dict (e : Entity) : EntityRecord :=
  { entity_id := e.entity_id, name := e.name,
    description :=
      match e.description with
      | none => none
      | some s => if s = "" then none else some s }

/-- `children.add(other)`: set insertion, a no-op when already present. -/
def add_child (e : Entity) (c : Int) : Entity :=
  if c ∈ e.children then e else { e with children := e.children ++ [c] }

end Entity

/-- `EntityGraph`: start id, insertion-ordered entity table (the Python
`dict` keyed by `entity_id`), and the `start_parents` set (duplicate-free
list). -/
structure EntityGraph where
  start : Int
  entities : List Entity
  start_parents : List Int
deriving Repr, DecidableEq

namespace EntityGraph

/-- The keys of the entity table, in insertion order. -/
def ids (g : EntityGraph) : List Int :=
  g.entities.map Entity.entity_id

/-- `entity_id in self.entities`. -/
def has_entity (g : EntityGraph) (id : Int) : Bool :=
  g.entities.any fun e => e.entity_id == id

/-- `self.entities.get(entity_id)`. -/
def get_entity (g : EntityGraph) (id : Int) : Option Entity :=
  g.entities.find? fun e => e.entity_id == id

/-- `self.get_entity(self.start)`. -/
def get_start (g : EntityGraph) : Option Entity :=
  g.get_entity g.start

/-- `add_entity`: raises `duplicateEntity` when the id is already a key,
otherwise inserts a fresh entity with no children. -/
def add_entity (g : EntityGraph) (entity_id : Int) (name : String)
    (description : Option String) : Except CloneErr EntityGraph :=
  if g.has_entity entity_id then
    .error (.duplicateEntity entity_id)
  else
    .ok { g with entities := g.entities ++ [⟨entity_id, name, description, []⟩] }

/-- `add_link`: checks both endpoints (source first), adds the target to
the source entity's children set, and records the source in
`start_parents` when the target is the start id. -/
def add_link (g : EntityGraph) (from_entity to_entity : Int) :
    Except CloneErr EntityGraph :=
  if ¬ g.has_entity from_entity then
    .error (.unknownEntity from_entity)
  else if ¬ g.has_entity to_entity then
    .error (.unknownEntity to_entity)
  else
    .ok { g with
          entities := g.entities.map fun e =>
            if e.entity_id == from_entity then e.add_child to_entity else e,
          start_parents :=
            if to_entity == g.start then
              if from_entity ∈ g.start_parents then g.start_parents
              else g.start_parents ++ [from_entity]
            else g.start_parents }

/-- The `for entity in data['entities']` loop of `build_from_data`. -/
def addEntities (g : EntityGraph) : List EntityRecord → Except CloneErr EntityGraph
  | [] => .ok g
  | r :: rs =>
    match g.add_entity r.entity_id r.name r.description with
    | .error e => .error e
    | .ok g' => addEntities g' rs

/-- The `for link in data['links']` loop of `build_from_data`. -/
def addLinks (g : EntityGraph) : List LinkRec → Except CloneErr EntityGraph
  | [] => .ok g
  | l :: ls =>
    match g.add_link l.frm l.dst with
    | .error e => .error e
    | .ok g' => addLinks g' ls

/-- `EntityGraph.build_from_data`: add all entities, check that the start
id is present, then add all links, propagating any error. -/
def build_from_data (start : Int) (data : GraphRecord) :
    Except CloneErr EntityGraph :=
  match addEntities ⟨start, [], []⟩ data.entities with
  | .error e => .error e
  | .ok g =>
    if ¬ g.has_entity start then
      .error (.missingStart start)
    else
      addLinks g data.links

/-- `EntityGraph.to_dict`: one record per entity in table order, and one
`{from, to}` pair per child of each entity. -/
def to_dict (g : EntityGraph) : GraphRecord :=
  { entities := g.entities.map Entity.to_dict,
    links := g.entities.flatMap fun e =>
      e.children.map fun c => ⟨e.entity_id, c⟩ }

end EntityGraph

/-- `construct_output`: concatenates the serialized entities and links of
both graphs and appends one bridging link per recorded start parent. -/
def construct_output (initial cloned : EntityGraph) : GraphRecord :=
  { entities := initial.to_dict.entities ++ cloned.to_dict.entities,
    links := initial.to_dict.links ++ cloned.to_dict.links
      ++ initial.start_parents.map fun p => ⟨p, cloned.start⟩ }

/-- `EntityCloner`: the initial graph, the lazily created cloned graph
(`None` before `clone_subgraph` runs) and the id counter seed. -/
structure EntityCloner where
  initial_graph : EntityGraph
  cloned_graph : Option EntityGraph
  _current_id : Int
deriving Repr, DecidableEq

namespace EntityCloner

/-- The test of `generate_id`'s `while` loop: the candidate is used in the
initial graph or in the (possibly absent) cloned graph. -/
def isUsed (cl : EntityCloner) (n : Int) : Bool :=
  cl.initial_graph.has_entity n ||
    (match cl.cloned_graph with
     | some cg => cg.has_entity n
     | none => false)

/-- All ids currently used in either graph (with possible repetitions);
only its length and membership matter. -/
def usedList (cl : EntityCloner) : List Int :=
  cl.initial_graph.ids ++
    (match cl.cloned_graph with
     | some cg => cg.ids
     | none => [])

/-- The `while` loop of `generate_id`, with explicit fuel: keep
incrementing while the candidate id is used.  The fuel passed by
`generate_id` is proved sufficient, so the `0` branch is unreachable. -/
def genFrom (cl : EntityCloner) : Nat → Int → Int
  | 0, n => n
  | fuel + 1, n => if cl.isUsed n then genFrom cl fuel (n + 1) else n

/-- `generate_id`: increment the counter, then skip every id used in
either graph; returns the fresh id together with the updated cloner. -/
def generate_id (cl : EntityCloner) : Int × EntityCloner :=
  let i := genFrom cl (cl.usedList.length + 1) (cl._current_id + 1)
  (i, { cl with _current_id := i })

end EntityCloner

/-- The state of the breadth-first loop of `clone_subgraph`: the initial
graph, the cloned graph under construction, the id counter, the `visited`
dictionary (initial id → clone id, insertion ordered) and the FIFO queue
of initial-graph entities. -/
structure BfsState where
  ig : EntityGraph
  cg : EntityGraph
  cur : Int
  visited : List (Int × Int)
  queue : List Entity
deriving Repr, DecidableEq

/-- `visited[k]` as a partial lookup. -/
def lookupV (visited : List (Int × Int)) (k : Int) : Option Int :=
  (visited.find? fun p => p.1 == k).map Prod.snd

/-- One iteration of `for child in current.children`.  An unseen child
gets a fresh id, a cloned entity, a link from the parent's clone, a queue
slot and a `visited` entry; a seen child only gets the link. -/
def cloneStep (st : BfsState) (current : Entity) (childId : Int) :
    Except CloneErr BfsState :=
  match lookupV st.visited childId with
  | none =>
    match st.ig.get_entity childId with
    | none => .error (.unknownEntity childId)
    | some child =>
      let (cloned_id, cl') :=
        EntityCloner.generate_id ⟨st.ig, some st.cg, st.cur⟩
      match st.cg.add_entity cloned_id child.name child.description with
      | .error e => .error e
      | .ok cg₁ =>
        match lookupV st.visited current.entity_id with
        | none => .error (.keyError current.entity_id)
        | some parentClone =>
          match cg₁.add_link parentClone cloned_id with
          | .error e => .error e
          | .ok cg₂ =>
            .ok { st with
                  cg := cg₂, cur := cl'._current_id,
                  visited := st.visited ++ [(childId, cloned_id)],
                  queue := st.queue ++ [child] }
  | some childClone =>
    match lookupV st.visited current.entity_id with
    | none => .error (.keyError current.entity_id)
    | some parentClone =>
      match st.cg.add_link parentClone childClone with
      | .error e => .error e
      | .ok cg₁ => .ok { st with cg := cg₁ }

/-- The full `for child in current.children` loop. -/
def processChildren (st : BfsState) (current : Entity) :
    List Int → Except CloneErr BfsState
  | [] => .ok st
  | c :: cs =>
    match cloneStep st current c with
    | .error e => .error e
    | .ok st' => processChildren st' current cs

/-- The `while not queue.empty()` loop, with explicit fuel; the bound
passed by `cloneFull` is proved sufficient, so `outOfFuel` is
unreachable. -/
def bfsLoop : Nat → BfsState → Except CloneErr BfsState
  | fuel, st =>
    match st.queue with
    | [] => .ok st
    | current :: rest =>
      match fuel with
      | 0 => .error .outOfFuel
      | fuel' + 1 =>
        match processChildren { st with queue := rest } current
            current.children with
        | .error e => .error e
        | .ok st' => bfsLoop fuel' st'

/-- Fuel bound for the BFS loop: one iteration per entity of the initial
graph, plus one. -/
def fuelBound (g : EntityGraph) : Nat :=
  g.entities.length + 1

/-- `clone_subgraph` instrumented to return the whole final loop state
(including the `visited` mapping the specification talks about). -/
def cloneFull (cl : EntityCloner) : Except CloneErr BfsState :=
  match cl.initial_graph.get_start with
  | none => .error .startAbsent
  | some current =>
    let (cloned_start, cl₁) := cl.generate_id
    let cg₀ : EntityGraph := ⟨cloned_start, [], []⟩
    match cg₀.add_entity cloned_start current.name current.description with
    | .error e => .error e
    | .ok cg₁ =>
      bfsLoop (fuelBound cl.initial_graph)
        ⟨cl.initial_graph, cg₁, cl₁._current_id,
          [(current.entity_id, cloned_start)], [current]⟩

/-- `EntityCloner.clone_subgraph`: returns the cloned graph and the
updated cloner state. -/
def EntityCloner.clone_subgraph (cl : EntityCloner) :
    Except CloneErr (EntityGraph × EntityCloner) :=
  (cloneFull cl).map fun st =>
    (st.cg, { initial_graph := st.ig, cloned_graph := some st.cg,
              _current_id := st.cur })

/-! ### Specification-level notions -/

/-- The class invariants every Python-constructed `EntityGraph` enjoys:
unique ids, children referencing present entities, duplicate-free
children. -/
def EntityGraph.Valid (g : EntityGraph) : Prop :=
  g.ids.Nodup ∧
    ∀ e ∈ g.entities, (∀ c ∈ e.children, c ∈ g.ids) ∧ e.children.Nodup

instance (g : EntityGraph) : Decidable g.Valid := by
  unfold EntityGraph.Valid; infer_instance

/-- `u → v` is an edge of the graph. -/
def edgeIn (g : EntityGraph) (u v : Int) : Prop :=
  ∃ e ∈ g.entities, e.entity_id = u ∧ v ∈ e.children

instance (g : EntityGraph) (u v : Int) : Decidable (edgeIn g u v) := by
  unfold edgeIn; infer_instance

/-- Reachability along edges. -/
def Reaches (g : EntityGraph) : Int → Int → Prop :=
  Relation.ReflTransGen (edgeIn g)

/-- `start_parents` is exactly the set of sources of edges into `start`
(the incrementally maintained meaning of the field). -/
def SPinv (g : EntityGraph) : Prop :=
  ∀ p, p ∈ g.start_parents ↔ edgeIn g p g.start

/-- An entity with its links forgotten, as rebuilt by `add_entity`. -/
def clearChildren (e : Entity) : Entity :=
  { e with children := [] }

/-! ### Concrete fixtures used by the witnesses

`igW` is the three-entity cycle of the program's test suite
(entities 1,2,3; links 1→2, 2→3, 3→1; start 1), exactly as
`build_from_data` produces it. -/

def igW : EntityGraph :=
  ⟨1, [⟨1, "Name1", none, [2]⟩, ⟨2, "Name2", none, [3]⟩,
       ⟨3, "Name3", none, [1]⟩], [3]⟩

def clW : EntityCloner := ⟨igW, none, 0⟩

/-- The final BFS state of cloning `igW` (checked by evaluation). -/
def stW : BfsState :=
  ⟨igW,
   ⟨4, [⟨4, "Name1", none, [5]⟩, ⟨5, "Name2", none, [6]⟩,
        ⟨6, "Name3", none, [4]⟩], [6]⟩,
   6, [(1, 4), (2, 5), (3, 6)], []⟩

/-- A graph with a non-trivial description, for the round-trip witness. -/
def gRT : EntityGraph :=
  ⟨2, [⟨1, "EntityA", none, [2]⟩, ⟨2, "EntityB", none, [3]⟩,
       ⟨3, "EntityC", some "More details", [1]⟩], [1]⟩

/-- A graph whose single entity has an empty-string description: the
round-trip counterexample. -/
def gCE : EntityGraph := ⟨1, [⟨1, "A", some "", []⟩], []⟩

/-- The serialized form of `igW` (input record of the cycle test). -/
def dataW : GraphRecord :=
  ⟨[⟨1, "Name1", none⟩, ⟨2, "Name2", none⟩, ⟨3, "Name3", none⟩],
   [⟨1, 2⟩, ⟨2, 3⟩, ⟨3, 1⟩]⟩

/-- The part of the BFS loop invariant that every single `cloneStep`
preserves: the cloned graph's key list grows in lockstep with the
`visited` values, both sides of `visited` are duplicate-free, clones
carry their source's name and description, cloned ids avoid the initial
graph, visited keys are reachable, and the queue holds visited
initial-graph entities without repetition. -/
structure CoreInv (ig : EntityGraph) (st : BfsState) : Prop where
  frame : st.ig = ig
  lock : st.cg.ids = st.visited.map Prod.snd
  keysN : (st.visited.map Prod.fst).Nodup
  valsN : (st.visited.map Prod.snd).Nodup
  fidelity : ∀ p ∈ st.visited, ∃ e e',
    ig.get_entity p.1 = some e ∧ st.cg.get_entity p.2 = some e' ∧
    e'.name = e.name ∧ e'.description = e.description
  disj : ∀ i ∈ st.cg.ids, ig.has_entity i = false
  reach : ∀ p ∈ st.visited, Reaches ig ig.start p.1
  qmem : ∀ e ∈ st.queue, e ∈ ig.entities
  qvis : ∀ e ∈ st.queue, e.entity_id ∈ st.visited.map Prod.fst
  qnd : (st.queue.map Entity.entity_id).Nodup

/-- The full invariant, restored between iterations of the outer `while`
loop: additionally, every dequeued-and-processed entity has all its
children visited, and the cloned edges are exactly the images under
`visited` of the initial edges whose source has been fully processed. -/
structure CloneInv (ig : EntityGraph) (st : BfsState)
    extends CoreInv ig st : Prop where
  closure : ∀ a ∈ st.visited.map Prod.fst,
    a ∉ st.queue.map Entity.entity_id →
    ∀ e, ig.get_entity a = some e → ∀ c ∈ e.children,
      c ∈ st.visited.map Prod.fst
  edges : ∀ cu cv, edgeIn st.cg cu cv ↔ ∃ u v,
    lookupV st.visited u = some cu ∧ lookupV st.visited v = some cv ∧
    u ∉ st.queue.map Entity.entity_id ∧ edgeIn ig u v

/-! ### Basic lemmas: membership, lookup, `add_child` -/

namespace Entity

theorem add_child_entity_id (e : Entity) (c : Int) :
    (e.add_child c).entity_id = e.entity_id := by
  unfold add_child; split <;> rfl

theorem add_child_name (e : Entity) (c : Int) :
    (e.add_child c).name = e.name := by
  unfold add_child; split <;> rfl

theorem add_child_description (e : Entity) (c : Int) :
    (e.add_child c).description = e.description := by
  unfold add_child; split <;> rfl

theorem mem_add_child {e : Entity} {c x : Int} :
    x ∈ (e.add_child c).children ↔ x ∈ e.children ∨ x = c := by
  unfold add_child; split <;> rename_i h
  · constructor
    · exact fun hx => Or.inl hx
    · rintro (hx | rfl)
      · exact hx
      · exact h
  · simp

theorem add_child_nodup {e : Entity} {c : Int} (h : e.children.Nodup) :
    (e.add_child c).children.Nodup := by
  unfold add_child; split
  · exact h
  · rename_i hc; simp [List.nodup_append, h, hc]

theorem subset_add_child (e : Entity) (c : Int) :
    e.children ⊆ (e.add_child c).children := by
  intro x hx; exact mem_add_child.mpr (Or.inl hx)

end Entity

namespace EntityGraph

theorem has_entity_iff {g : EntityGraph} {id : Int} :
    g.has_entity id = true ↔ id ∈ g.ids := by
  unfold has_entity ids
  rw [List.any_eq_true]
  constructor
  · rintro ⟨e, he, hp⟩
    exact List.mem_map.mpr ⟨e, he, by simpa using hp⟩
  · intro h
    rcases List.mem_map.mp h with ⟨e, he, hid⟩
    exact ⟨e, he, by simpa using hid⟩

theorem has_entity_false_iff {g : EntityGraph} {id : Int} :
    g.has_entity id = false ↔ id ∉ g.ids := by
  constructor
  · intro h hmem
    have hT := has_entity_iff.mpr hmem
    rw [h] at hT; exact Bool.false_ne_true hT
  · intro h
    cases hb : g.has_entity id
    · rfl
    · exact absurd (has_entity_iff.mp hb) h

theorem get_entity_eq_some {g : EntityGraph} {id : Int} {e : Entity}
    (h : g.get_entity id = some e) : e ∈ g.entities ∧ e.entity_id = id := by
  refine ⟨List.mem_of_find?_eq_some h, ?_⟩
  have hp := List.find?_some h
  simpa using hp

theorem get_entity_eq_none_iff {g : EntityGraph} {id : Int} :
    g.get_entity id = none ↔ id ∉ g.ids := by
  unfold get_entity
  rw [List.find?_eq_none]
  constructor
  · intro h hmem
    rcases List.mem_map.mp hmem with ⟨e, he, hid⟩
    exact h e he (by simpa using hid)
  · intro h e he hp
    exact h (List.mem_map.mpr ⟨e, he, by simpa using hp⟩)

theorem find?_entity_of_mem :
    ∀ {l : List Entity}, (l.map Entity.entity_id).Nodup →
      ∀ {e : Entity}, e ∈ l →
        l.find? (fun x => x.entity_id == e.entity_id) = some e := by
  intro l
  induction l with
  | nil => intro _ e he; cases he
  | cons a l ih =>
    intro hN e he
    rcases List.mem_cons.mp he with rfl | he'
    · exact List.find?_cons_of_pos _ (by simp)
    · have hne : (a.entity_id == e.entity_id) = false := by
        simp only [beq_eq_false_iff_ne, ne_eq]
        intro hEq
        have : a.entity_id ∈ l.map Entity.entity_id :=
          hEq ▸ List.mem_map.mpr ⟨e, he', rfl⟩
        exact (List.nodup_cons.mp (by simpa using hN)).1 this
      rw [List.find?_cons_of_neg _ (by simp [hne])]
      exact ih (List.nodup_cons.mp (by simpa using hN)).2 he'

theorem get_entity_of_mem {g : EntityGraph} (hN : g.ids.Nodup) {e : Entity}
    (he : e ∈ g.entities) : g.get_entity e.entity_id = some e :=
  find?_entity_of_mem hN he

theorem get_entity_some_of_mem_ids {g : EntityGraph} {id : Int}
    (h : id ∈ g.ids) : ∃ e, g.get_entity id = some e ∧ e.entity_id = id := by
  cases hg : g.get_entity id with
  | none => exact absurd h (get_entity_eq_none_iff.mp hg)
  | some e => exact ⟨e, rfl, (get_entity_eq_some hg).2⟩

/-! ### `add_entity` -/

theorem add_entity_error_iff {g : EntityGraph} {id : Int} {n : String}
    {d : Option String} :
    g.add_entity id n d = .error (.duplicateEntity id) ↔
      g.has_entity id = true := by
  unfold add_entity
  split <;> rename_i h <;> simp [h]

theorem add_entity_ok {g : EntityGraph} {id : Int} {n : String}
    {d : Option String} (h : g.has_entity id = false) :
    g.add_entity id n d =
      .ok { g with entities := g.entities ++ [⟨id, n, d, []⟩] } := by
  unfold add_entity
  simp [h]

/-! ### `add_link` -/

theorem add_link_error_src {g : EntityGraph} {f t : Int}
    (hf : g.has_entity f = false) :
    g.add_link f t = .error (.unknownEntity f) := by
  unfold add_link; simp [hf]

theorem add_link_error_dst {g : EntityGraph} {f t : Int}
    (hf : g.has_entity f = true) (ht : g.has_entity t = false) :
    g.add_link f t = .error (.unknownEntity t) := by
  unfold add_link; simp [hf, ht]

theorem add_link_ok {g : EntityGraph} {f t : Int}
    (hf : g.has_entity f = true) (ht : g.has_entity t = true) :
    g.add_link f t =
      .ok { g with
            entities := g.entities.map fun e =>
              if e.entity_id == f then e.add_child t else e,
            start_parents :=
              if t == g.start then
                if f ∈ g.start_parents then g.start_parents
                else g.start_parents ++ [f]
              else g.start_parents } := by
  unfold add_link; simp [hf, ht]

theorem add_link_isOk_iff {g : EntityGraph} {f t : Int} :
    (∃ g', g.add_link f t = .ok g') ↔
      (g.has_entity f = true ∧ g.has_entity t = true) := by
  constructor
  · rintro ⟨g', h⟩
    cases hf : g.has_entity f with
    | false => rw [add_link_error_src hf] at h; cases h
    | true =>
      cases ht : g.has_entity t with
      | false => rw [add_link_error_dst hf ht] at h; cases h
      | true => exact ⟨rfl, rfl⟩
  · rintro ⟨hf, ht⟩
    exact ⟨_, add_link_ok hf ht⟩

/-- Mapping an id-preserving function over the entity table preserves the
key list. -/
theorem map_ids_invariant (l : List Entity) (f : Int) (t : Int) :
    (l.map fun e => if e.entity_id == f then e.add_child t else e).map
        Entity.entity_id = l.map Entity.entity_id := by
  rw [List.map_map]
  apply List.map_congr_left
  intro e _
  simp only [Function.comp_apply]
  split <;> simp [Entity.add_child_entity_id]

theorem find?_map_invariant (l : List Entity) (F : Entity → Entity)
    (p : Entity → Bool) (hp : ∀ e, p (F e) = p e) :
    (l.map F).find? p = (l.find? p).map F := by
  induction l with
  | nil => rfl
  | cons a l ih =>
    rw [List.map_cons]
    cases hpa : p a with
    | true =>
      rw [List.find?_cons_of_pos _ (by rw [hp]; exact hpa),
          List.find?_cons_of_pos _ hpa]
      rfl
    | false =>
      rw [List.find?_cons_of_neg _ (by rw [hp]; simp [hpa]),
          List.find?_cons_of_neg _ (by simp [hpa])]
      exact ih

theorem add_link_ids {g g' : EntityGraph} {f t : Int}
    (h : g.add_link f t = .ok g') : g'.ids = g.ids := by
  rcases add_link_isOk_iff.mp ⟨g', h⟩ with ⟨hf, ht⟩
  rw [add_link_ok hf ht] at h
  cases h
  exact map_ids_invariant _ _ _

theorem add_link_start {g g' : EntityGraph} {f t : Int}
    (h : g.add_link f t = .ok g') : g'.start = g.start := by
  rcases add_link_isOk_iff.mp ⟨g', h⟩ with ⟨hf, ht⟩
  rw [add_link_ok hf ht] at h
  cases h
  rfl

theorem add_link_get_entity {g g' : EntityGraph} {f t : Int}
    (h : g.add_link f t = .ok g') (a : Int) :
    g'.get_entity a = (g.get_entity a).map
      fun e => if e.entity_id == f then e.add_child t else e := by
  rcases add_link_isOk_iff.mp ⟨g', h⟩ with ⟨hf, ht⟩
  rw [add_link_ok hf ht] at h
  cases h
  unfold get_entity
  exact find?_map_invariant _ _ _ fun e => by
    split <;> simp [Entity.add_child_entity_id]

theorem add_link_sp_mem {g g' : EntityGraph} {f t : Int}
    (h : g.add_link f t = .ok g') (p : Int) :
    p ∈ g'.start_parents ↔
      p ∈ g.start_parents ∨ (p = f ∧ t = g.start) := by
  rcases add_link_isOk_iff.mp ⟨g', h⟩ with ⟨hf, ht⟩
  have hsp : g'.start_parents =
      if t == g.start then
        if f ∈ g.start_parents then g.start_parents
        else g.start_parents ++ [f]
      else g.start_parents := by
    rw [add_link_ok hf ht] at h
    cases h
    rfl
  rw [hsp]
  split_ifs with h1 h2
  · constructor
    · exact fun hp => Or.inl hp
    · rintro (hp | ⟨rfl, _⟩)
      · exact hp
      · exact h2
  · simp only [List.mem_append, List.mem_singleton]
    constructor
    · rintro (hp | rfl)
      · exact Or.inl hp
      · exact Or.inr ⟨rfl, beq_iff_eq.mp h1⟩
    · rintro (hp | ⟨rfl, _⟩)
      · exact Or.inl hp
      · exact Or.inr rfl
  · constructor
    · exact fun hp => Or.inl hp
    · rintro (hp | ⟨rfl, hts⟩)
      · exact hp
      · exact absurd (beq_iff_eq.mpr hts) (by simpa using h1)

theorem add_link_sp_nodup {g g' : EntityGraph} {f t : Int}
    (h : g.add_link f t = .ok g') (hN : g.start_parents.Nodup) :
    g'.start_parents.Nodup := by
  rcases add_link_isOk_iff.mp ⟨g', h⟩ with ⟨hf, ht⟩
  have hsp : g'.start_parents =
      if t == g.start then
        if f ∈ g.start_parents then g.start_parents
        else g.start_parents ++ [f]
      else g.start_parents := by
    rw [add_link_ok hf ht] at h
    cases h
    rfl
  rw [hsp]
  split_ifs with h1 h2
  · exact hN
  · simp [List.nodup_append, hN, h2]
  · exact hN

theorem edgeIn_add_link {g g' : EntityGraph} {f t : Int}
    (h : g.add_link f t = .ok g') (u v : Int) :
    edgeIn g' u v ↔ edgeIn g u v ∨ (u = f ∧ v = t) := by
  rcases add_link_isOk_iff.mp ⟨g', h⟩ with ⟨hf, ht⟩
  rw [add_link_ok hf ht] at h
  cases h
  unfold edgeIn
  constructor
  · rintro ⟨e', he', hid, hv⟩
    rcases List.mem_map.mp he' with ⟨e, he, rfl⟩
    by_cases hef : (e.entity_id == f) = true
    · rw [if_pos hef] at hid hv
      rw [Entity.add_child_entity_id] at hid
      rcases Entity.mem_add_child.mp hv with hv' | rfl
      · exact Or.inl ⟨e, he, hid, hv'⟩
      · exact Or.inr ⟨by rw [← hid]; exact (beq_iff_eq).mp hef, rfl⟩
    · rw [if_neg hef] at hid hv
      exact Or.inl ⟨e, he, hid, hv⟩
  · rintro (⟨e, he, hid, hv⟩ | ⟨huf, hvt⟩)
    · refine ⟨if e.entity_id == f then e.add_child t else e,
        List.mem_map.mpr ⟨e, he, rfl⟩, ?_, ?_⟩
      · split <;> simp [Entity.add_child_entity_id, hid]
      · split
        · exact Entity.mem_add_child.mpr (Or.inl hv)
        · exact hv
    · subst huf
      subst hvt
      have hfm := has_entity_iff.mp hf
      rcases List.mem_map.mp hfm with ⟨e, he, hid⟩
      refine ⟨e.add_child v, ?_, ?_, Entity.mem_add_child.mpr (Or.inr rfl)⟩
      · refine List.mem_map.mpr ⟨e, he, ?_⟩
        simp [hid]
      · rw [Entity.add_child_entity_id]; exact hid

theorem add_entity_ids {g g' : EntityGraph} {id : Int} {n : String}
    {d : Option String} (h : g.add_entity id n d = .ok g') :
    g'.ids = g.ids ++ [id] := by
  cases hfresh : g.has_entity id with
  | true => rw [add_entity, if_pos hfresh] at h; cases h
  | false =>
    rw [add_entity_ok hfresh] at h
    cases h
    simp [ids]

theorem add_entity_start {g g' : EntityGraph} {id : Int} {n : String}
    {d : Option String} (h : g.add_entity id n d = .ok g') :
    g'.start = g.start := by
  cases hfresh : g.has_entity id with
  | true => rw [add_entity, if_pos hfresh] at h; cases h
  | false =>
    rw [add_entity_ok hfresh] at h
    cases h
    rfl

theorem add_entity_sp {g g' : EntityGraph} {id : Int} {n : String}
    {d : Option String} (h : g.add_entity id n d = .ok g') :
    g'.start_parents = g.start_parents := by
  cases hfresh : g.has_entity id with
  | true => rw [add_entity, if_pos hfresh] at h; cases h
  | false =>
    rw [add_entity_ok hfresh] at h
    cases h
    rfl

theorem add_entity_entities {g g' : EntityGraph} {id : Int} {n : String}
    {d : Option String} (h : g.add_entity id n d = .ok g') :
    g'.entities = g.entities ++ [⟨id, n, d, []⟩] := by
  cases hfresh : g.has_entity id with
  | true => rw [add_entity, if_pos hfresh] at h; cases h
  | false =>
    rw [add_entity_ok hfresh] at h
    cases h
    rfl

theorem find?_append_left {α : Type _} {l₁ l₂ : List α} {p : α → Bool}
    {e : α} (h : l₁.find? p = some e) :
    (l₁ ++ l₂).find? p = some e := by
  induction l₁ with
  | nil => cases h
  | cons a l ih =>
    cases hpa : p a with
    | true =>
      rw [List.find?_cons_of_pos _ hpa] at h
      rw [List.cons_append, List.find?_cons_of_pos _ hpa]
      exact h
    | false =>
      rw [List.find?_cons_of_neg _ (by simp [hpa])] at h
      rw [List.cons_append, List.find?_cons_of_neg _ (by simp [hpa])]
      exact ih h

theorem find?_append_none {α : Type _} {l₁ l₂ : List α} {p : α → Bool}
    (h : l₁.find? p = none) : (l₁ ++ l₂).find? p = l₂.find? p := by
  induction l₁ with
  | nil => rfl
  | cons a l ih =>
    cases hpa : p a with
    | true => rw [List.find?_cons_of_pos _ hpa] at h; cases h
    | false =>
      rw [List.find?_cons_of_neg _ (by simp [hpa])] at h
      rw [List.cons_append, List.find?_cons_of_neg _ (by simp [hpa])]
      exact ih h

theorem add_entity_get_old {g g' : EntityGraph} {id : Int} {n : String}
    {d : Option String} (h : g.add_entity id n d = .ok g') {a : Int}
    {e : Entity} (ha : g.get_entity a = some e) : g'.get_entity a = some e := by
  unfold get_entity
  rw [add_entity_entities h]
  exact find?_append_left ha

theorem add_entity_get_new {g g' : EntityGraph} {id : Int} {n : String}
    {d : Option String} (h : g.add_entity id n d = .ok g')
    (hfresh : g.has_entity id = false) :
    g'.get_entity id = some ⟨id, n, d, []⟩ := by
  have hnone : g.get_entity id = none :=
    get_entity_eq_none_iff.mpr (has_entity_false_iff.mp hfresh)
  show g'.entities.find? _ = _
  rw [add_entity_entities h]
  rw [find?_append_none hnone]
  exact List.find?_cons_of_pos _ (by simp)

theorem edgeIn_add_entity {g g' : EntityGraph} {id : Int} {n : String}
    {d : Option String} (h : g.add_entity id n d = .ok g') (u v : Int) :
    edgeIn g' u v ↔ edgeIn g u v := by
  unfold edgeIn
  rw [add_entity_entities h]
  constructor
  · rintro ⟨e, he, hid, hv⟩
    rcases List.mem_append.mp he with he' | he'
    · exact ⟨e, he', hid, hv⟩
    · rw [List.mem_singleton] at he'
      subst he'
      cases hv
  · rintro ⟨e, he, hid, hv⟩
    exact ⟨e, List.mem_append.mpr (Or.inl he), hid, hv⟩

theorem valid_add_entity {g g' : EntityGraph} {id : Int} {n : String}
    {d : Option String} (h : g.add_entity id n d = .ok g')
    (hV : g.Valid) : g'.Valid := by
  have hfresh : g.has_entity id = false := by
    cases hb : g.has_entity id with
    | false => rfl
    | true => rw [add_entity, if_pos hb] at h; cases h
  have hid := add_entity_ids h
  constructor
  · rw [hid]
    simp [List.nodup_append, hV.1, has_entity_false_iff.mp hfresh]
  · intro e he
    rw [add_entity_entities h] at he
    rcases List.mem_append.mp he with he' | he'
    · rcases hV.2 e he' with ⟨hsub, hnd⟩
      refine ⟨?_, hnd⟩
      intro c hc
      rw [hid]
      exact List.mem_append.mpr (Or.inl (hsub c hc))
    · rw [List.mem_singleton] at he'
      subst he'
      refine ⟨?_, List.nodup_nil⟩
      intro c hc
      cases hc

theorem valid_add_link {g g' : EntityGraph} {f t : Int}
    (h : g.add_link f t = .ok g') (hV : g.Valid) : g'.Valid := by
  rcases add_link_isOk_iff.mp ⟨g', h⟩ with ⟨hf, ht⟩
  have hids := add_link_ids h
  constructor
  · rw [hids]; exact hV.1
  · intro e' he'
    have hent : g'.entities = g.entities.map fun e =>
        if e.entity_id == f then e.add_child t else e := by
      rw [add_link_ok hf ht] at h
      cases h
      rfl
    rw [hent] at he'
    rcases List.mem_map.mp he' with ⟨e, he, rfl⟩
    rcases hV.2 e he with ⟨hsub, hnd⟩
    constructor
    · intro c hc
      rw [hids]
      split at hc
      · rcases Entity.mem_add_child.mp hc with hc' | rfl
        · exact hsub c hc'
        · exact has_entity_iff.mp ht
      · exact hsub c hc
    · split
      · exact Entity.add_child_nodup hnd
      · exact hnd

theorem spinv_add_entity {g g' : EntityGraph} {id : Int} {n : String}
    {d : Option String} (h : g.add_entity id n d = .ok g')
    (hS : SPinv g) : SPinv g' := by
  intro p
  rw [add_entity_sp h, add_entity_start h, edgeIn_add_entity h]
  exact hS p

theorem spinv_add_link {g g' : EntityGraph} {f t : Int}
    (h : g.add_link f t = .ok g') (hS : SPinv g) : SPinv g' := by
  intro p
  rw [add_link_start h, add_link_sp_mem h, edgeIn_add_link h, hS p]
  constructor
  · rintro (h' | ⟨rfl, h2⟩)
    · exact Or.inl h'
    · exact Or.inr ⟨rfl, h2.symm⟩
  · rintro (h' | ⟨rfl, h2⟩)
    · exact Or.inl h'
    · exact Or.inr ⟨rfl, h2.symm⟩

/-! ### The two loops of `build_from_data` -/

theorem addEntities_ok :
    ∀ {rs : List EntityRecord} {g : EntityGraph},
      (g.ids ++ rs.map EntityRecord.entity_id).Nodup →
      ∃ g', addEntities g rs = .ok g' ∧
        g'.entities = g.entities ++
          rs.map (fun r => ⟨r.entity_id, r.name, r.description, []⟩) ∧
        g'.start = g.start ∧ g'.start_parents = g.start_parents := by
  intro rs
  induction rs with
  | nil =>
    intro g _
    exact ⟨g, rfl, by simp, rfl, rfl⟩
  | cons r rs ih =>
    intro g hN
    have hfresh : g.has_entity r.entity_id = false := by
      rw [has_entity_false_iff]
      intro hmem
      rw [List.map_cons] at hN
      exact (List.disjoint_of_nodup_append hN) hmem (by simp)
    have hok := add_entity_ok (g := g) (n := r.name) (d := r.description) hfresh
    have hN' : (({ g with entities := g.entities ++
        [⟨r.entity_id, r.name, r.description, []⟩] } : EntityGraph).ids ++
        rs.map EntityRecord.entity_id).Nodup := by
      have : ({ g with entities := g.entities ++
          [⟨r.entity_id, r.name, r.description, []⟩] } : EntityGraph).ids =
          g.ids ++ [r.entity_id] := by simp [ids]
      rw [this, List.append_assoc, List.singleton_append]
      simpa [List.map_cons] using hN
    rcases ih hN' with ⟨g', hrun, hent, hstart, hsp⟩
    refine ⟨g', ?_, ?_, hstart, hsp⟩
    · show addEntities g (r :: rs) = .ok g'
      unfold addEntities
      rw [hok]
      exact hrun
    · rw [hent]
      simp [List.append_assoc]

theorem addLinks_error :
    ∀ {ls : List LinkRec} {g : EntityGraph} {e : CloneErr},
      addLinks g ls = .error e → ∃ i, e = .unknownEntity i := by
  intro ls
  induction ls with
  | nil => intro g e h; cases h
  | cons l ls ih =>
    intro g e h
    unfold addLinks at h
    cases hl : g.add_link l.frm l.dst with
    | error e' =>
      rw [hl] at h
      cases h
      cases hf : g.has_entity l.frm with
      | false => rw [add_link_error_src hf] at hl; cases hl; exact ⟨l.frm, rfl⟩
      | true =>
        cases ht : g.has_entity l.dst with
        | false =>
          rw [add_link_error_dst hf ht] at hl; cases hl; exact ⟨l.dst, rfl⟩
        | true => rw [add_link_ok hf ht] at hl; cases hl
    | ok g₁ =>
      rw [hl] at h
      exact ih h

theorem addLinks_start :
    ∀ {ls : List LinkRec} {g g' : EntityGraph},
      addLinks g ls = .ok g' → g'.start = g.start := by
  intro ls
  induction ls with
  | nil => intro g g' h; cases h; rfl
  | cons l ls ih =>
    intro g g' h
    unfold addLinks at h
    cases hl : g.add_link l.frm l.dst with
    | error e => rw [hl] at h; cases h
    | ok g₁ =>
      rw [hl] at h
      rw [ih h, add_link_start hl]

theorem spinv_addLinks :
    ∀ {ls : List LinkRec} {g g' : EntityGraph},
      addLinks g ls = .ok g' → SPinv g → SPinv g' := by
  intro ls
  induction ls with
  | nil => intro g g' h hS; cases h; exact hS
  | cons l ls ih =>
    intro g g' h hS
    unfold addLinks at h
    cases hl : g.add_link l.frm l.dst with
    | error e => rw [hl] at h; cases h
    | ok g₁ =>
      rw [hl] at h
      exact ih h (spinv_add_link hl hS)

theorem sp_nodup_addLinks :
    ∀ {ls : List LinkRec} {g g' : EntityGraph},
      addLinks g ls = .ok g' → g.start_parents.Nodup → g'.start_parents.Nodup := by
  intro ls
  induction ls with
  | nil => intro g g' h hN; cases h; exact hN
  | cons l ls ih =>
    intro g g' h hN
    unfold addLinks at h
    cases hl : g.add_link l.frm l.dst with
    | error e => rw [hl] at h; cases h
    | ok g₁ =>
      rw [hl] at h
      exact ih h (add_link_sp_nodup hl hN)

theorem valid_addLinks :
    ∀ {ls : List LinkRec} {g g' : EntityGraph},
      addLinks g ls = .ok g' → g.Valid → g'.Valid := by
  intro ls
  induction ls with
  | nil => intro g g' h hV; cases h; exact hV
  | cons l ls ih =>
    intro g g' h hV
    unfold addLinks at h
    cases hl : g.add_link l.frm l.dst with
    | error e => rw [hl] at h; cases h
    | ok g₁ =>
      rw [hl] at h
      exact ih h (valid_add_link hl hV)

theorem spinv_addEntities :
    ∀ {rs : List EntityRecord} {g g' : EntityGraph},
      addEntities g rs = .ok g' → SPinv g → SPinv g' := by
  intro rs
  induction rs with
  | nil => intro g g' h hS; cases h; exact hS
  | cons r rs ih =>
    intro g g' h hS
    unfold addEntities at h
    cases hA : g.add_entity r.entity_id r.name r.description with
    | error e => rw [hA] at h; cases h
    | ok g₁ =>
      rw [hA] at h
      exact ih h (spinv_add_entity hA hS)

theorem valid_addEntities :
    ∀ {rs : List EntityRecord} {g g' : EntityGraph},
      addEntities g rs = .ok g' → g.Valid → g'.Valid := by
  intro rs
  induction rs with
  | nil => intro g g' h hV; cases h; exact hV
  | cons r rs ih =>
    intro g g' h hV
    unfold addEntities at h
    cases hA : g.add_entity r.entity_id r.name r.description with
    | error e => rw [hA] at h; cases h
    | ok g₁ =>
      rw [hA] at h
      exact ih h (valid_add_entity hA hV)

theorem addEntities_start :
    ∀ {rs : List EntityRecord} {g g' : EntityGraph},
      addEntities g rs = .ok g' → g'.start = g.start := by
  intro rs
  induction rs with
  | nil => intro g g' h; cases h; rfl
  | cons r rs ih =>
    intro g g' h
    unfold addEntities at h
    cases hA : g.add_entity r.entity_id r.name r.description with
    | error e => rw [hA] at h; cases h
    | ok g₁ =>
      rw [hA] at h
      rw [ih h, add_entity_start hA]

theorem addEntities_sp :
    ∀ {rs : List EntityRecord} {g g' : EntityGraph},
      addEntities g rs = .ok g' → g'.start_parents = g.start_parents := by
  intro rs
  induction rs with
  | nil => intro g g' h; cases h; rfl
  | cons r rs ih =>
    intro g g' h
    unfold addEntities at h
    cases hA : g.add_entity r.entity_id r.name r.description with
    | error e => rw [hA] at h; cases h
    | ok g₁ =>
      rw [hA] at h
      rw [ih h, add_entity_sp hA]

/-- Splitting a successful `build_from_data` run into its three phases. -/
theorem build_from_data_ok_elim {start : Int} {data : GraphRecord}
    {g : EntityGraph} (h : build_from_data start data = .ok g) :
    ∃ g₁, addEntities ⟨start, [], []⟩ data.entities = .ok g₁ ∧
      g₁.has_entity start = true ∧ addLinks g₁ data.links = .ok g := by
  unfold build_from_data at h
  cases hE : addEntities ⟨start, [], []⟩ data.entities with
  | error e => rw [hE] at h; cases h
  | ok g₁ =>
    rw [hE] at h
    by_cases hs : g₁.has_entity start = true
    · exact ⟨g₁, rfl, hs, by simpa [hs] using h⟩
    · simp [hs] at h

/-- Every successfully built graph satisfies the `start_parents`
invariant, remembers its start id, keeps `start_parents` duplicate-free
and satisfies the class invariants. -/
theorem build_from_data_shape {start : Int} {data : GraphRecord}
    {g : EntityGraph} (h : build_from_data start data = .ok g) :
    SPinv g ∧ g.start = start ∧ g.start_parents.Nodup ∧ g.Valid := by
  rcases build_from_data_ok_elim h with ⟨g₁, hE, _, hL⟩
  have hS₀ : SPinv (⟨start, [], []⟩ : EntityGraph) := by
    intro p
    constructor
    · intro hp; cases hp
    · rintro ⟨e, he, _, _⟩; cases he
  have hV₀ : (⟨start, [], []⟩ : EntityGraph).Valid := by
    constructor
    · simp [ids]
    · intro e he; cases he
  refine ⟨spinv_addLinks hL (spinv_addEntities hE hS₀), ?_, ?_,
    valid_addLinks hL (valid_addEntities hE hV₀)⟩
  · rw [addLinks_start hL, addEntities_start hE]
  · refine sp_nodup_addLinks hL ?_
    rw [addEntities_sp hE]
    exact List.nodup_nil

theorem addLinks_append_ok :
    ∀ (l₁ l₂ : List LinkRec) (g g₁ : EntityGraph),
      addLinks g l₁ = .ok g₁ →
      addLinks g (l₁ ++ l₂) = addLinks g₁ l₂ := by
  intro l₁
  induction l₁ with
  | nil => intro l₂ g g₁ h; cases h; rfl
  | cons l ls ih =>
    intro l₂ g g₁ h
    unfold addLinks at h
    rw [List.cons_append]
    show (match g.add_link l.frm l.dst with
          | .error e => .error e
          | .ok g' => addLinks g' (ls ++ l₂)) = addLinks g₁ l₂
    cases hl : g.add_link l.frm l.dst with
    | error e => rw [hl] at h; cases h
    | ok g₂ =>
      rw [hl] at h
      show addLinks g₂ (ls ++ l₂) = addLinks g₁ l₂
      exact ih l₂ g₂ g₁ h

theorem foldl_add_child :
    ∀ (cs : List Int) (e : Entity), (e.children ++ cs).Nodup →
      cs.foldl Entity.add_child e = { e with children := e.children ++ cs } := by
  intro cs
  induction cs with
  | nil =>
    intro e _
    simp
  | cons c cs ih =>
    intro e hN
    have hc : c ∉ e.children := by
      intro hc
      have := List.disjoint_of_nodup_append hN
      exact this hc (by simp)
    show cs.foldl Entity.add_child (e.add_child c) = _
    have hadd : e.add_child c = { e with children := e.children ++ [c] } := by
      unfold Entity.add_child
      rw [if_neg hc]
    rw [hadd]
    have hN' : (({ e with children := e.children ++ [c] } : Entity).children
        ++ cs).Nodup := by
      show ((e.children ++ [c]) ++ cs).Nodup
      rw [List.append_assoc, List.singleton_append]
      exact hN
    rw [ih _ hN']
    show ({ e with children := (e.children ++ [c]) ++ cs } : Entity) = _
    rw [List.append_assoc, List.singleton_append]

theorem addLinks_single_source :
    ∀ (cs : List Int) (h : EntityGraph) (u : Int),
      u ∈ h.ids → (∀ c ∈ cs, c ∈ h.ids) →
      ∃ h', addLinks h (cs.map fun c => ⟨u, c⟩) = .ok h' ∧
        h'.entities = h.entities.map
          (fun e => if e.entity_id == u then cs.foldl Entity.add_child e else e) ∧
        h'.ids = h.ids ∧ h'.start = h.start := by
  intro cs
  induction cs with
  | nil =>
    intro h u _ _
    refine ⟨h, rfl, ?_, rfl, rfl⟩
    have : (fun e => if e.entity_id == u then ([] : List Int).foldl
        Entity.add_child e else e) = fun e => e := by
      funext e
      split <;> rfl
    rw [this, List.map_id']
  | cons c cs ih =>
    intro h u hu hc
    have hlink : h.add_link u c = .ok _ :=
      add_link_ok (has_entity_iff.mpr hu) (has_entity_iff.mpr (hc c (by simp)))
    set h₁ : EntityGraph :=
      { h with
        entities := h.entities.map fun e =>
          if e.entity_id == u then e.add_child c else e,
        start_parents :=
          if c == h.start then
            if u ∈ h.start_parents then h.start_parents
            else h.start_parents ++ [u]
          else h.start_parents } with hh₁
    have hids₁ : h₁.ids = h.ids := add_link_ids hlink
    rcases ih h₁ u (by rw [hids₁]; exact hu)
        (fun c' hc' => by rw [hids₁]; exact hc c' (by simp [hc'])) with
      ⟨h', hrun, hent, hids', hstart'⟩
    refine ⟨h', ?_, ?_, by rw [hids', hids₁], by rw [hstart']⟩
    · show addLinks h (⟨u, c⟩ :: cs.map fun c => ⟨u, c⟩) = .ok h'
      unfold addLinks
      rw [hlink]
      exact hrun
    · rw [hent]
      show (h.entities.map fun e =>
          if e.entity_id == u then e.add_child c else e).map _ = _
      rw [List.map_map]
      apply List.map_congr_left
      intro e _
      simp only [Function.comp_apply]
      by_cases he : (e.entity_id == u) = true
      · rw [if_pos he]
        have hae : ((e.add_child c).entity_id == u) = true := by
          rw [Entity.add_child_entity_id]; exact he
        rw [if_pos hae, if_pos he]
        rfl
      · rw [if_neg he, if_neg he, if_neg he]

theorem addLinks_replay :
    ∀ (es : List Entity) (pre : List Entity) (h : EntityGraph),
      h.entities = pre ++ es.map clearChildren →
      h.ids.Nodup →
      (∀ e ∈ es, ∀ c ∈ e.children, c ∈ h.ids) →
      (∀ e ∈ es, e.children.Nodup) →
      ∃ h', addLinks h (es.flatMap fun e =>
          e.children.map fun c => ⟨e.entity_id, c⟩) = .ok h' ∧
        h'.entities = pre ++ es ∧ h'.start = h.start := by
  intro es
  induction es with
  | nil =>
    intro pre h hent _ _ _
    exact ⟨h, rfl, by rw [hent]; simp, rfl⟩
  | cons e es ih =>
    intro pre h hent hN hsub hnd
    have hidsdec : h.ids = pre.map Entity.entity_id ++
        e.entity_id :: (es.map clearChildren).map Entity.entity_id := by
      rw [ids, hent]
      simp [clearChildren]
    have hpre_ne : ∀ p ∈ pre, p.entity_id ≠ e.entity_id := by
      intro p hp hEq
      rw [hidsdec] at hN
      exact (List.disjoint_of_nodup_append hN)
        (List.mem_map_of_mem _ hp) (by simp [hEq])
    have hes_ne : ∀ e' ∈ es, e'.entity_id ≠ e.entity_id := by
      intro e' he' hEq
      rw [hidsdec] at hN
      have h2 := (List.nodup_append.mp hN).2.1
      rw [List.nodup_cons] at h2
      refine h2.1 ?_
      rw [← hEq]
      exact List.mem_map.mpr ⟨clearChildren e',
        List.mem_map_of_mem _ he', rfl⟩
    have hu : e.entity_id ∈ h.ids := by
      rw [hidsdec]
      simp
    rcases addLinks_single_source e.children h e.entity_id hu
        (hsub e (by simp)) with ⟨h₁, hrun₁, hent₁, hids₁, hstart₁⟩
    have h1 : pre.map (fun x => if x.entity_id == e.entity_id then
        List.foldl Entity.add_child x e.children else x) = pre := by
      conv_rhs => rw [← List.map_id pre]
      apply List.map_congr_left
      intro p hp
      rw [if_neg (by simpa using hpre_ne p hp)]
      rfl
    have h2 : (if ((clearChildren e).entity_id == e.entity_id) = true then
        List.foldl Entity.add_child (clearChildren e) e.children
        else clearChildren e) = e := by
      rw [if_pos (by simp [clearChildren])]
      rw [foldl_add_child _ _ (by
        show (([] : List Int) ++ e.children).Nodup
        simpa using hnd e (by simp))]
      show ({ clearChildren e with
        children := (clearChildren e).children ++ e.children } : Entity) = e
      cases e
      simp [clearChildren]
    have h3 : (es.map clearChildren).map (fun x =>
        if x.entity_id == e.entity_id then
          List.foldl Entity.add_child x e.children else x) =
        es.map clearChildren := by
      conv_rhs => rw [← List.map_id (es.map clearChildren)]
      apply List.map_congr_left
      intro x hx
      rcases List.mem_map.mp hx with ⟨e', he', rfl⟩
      rw [if_neg (by simpa [clearChildren] using hes_ne e' he')]
      rfl
    have hent₁' : h₁.entities = (pre ++ [e]) ++ es.map clearChildren := by
      rw [hent₁, hent]
      simp only [List.map_append, List.map_cons]
      rw [h1, h2, h3]
      simp [List.append_assoc]
    rcases ih (pre ++ [e]) h₁ hent₁' (by rw [hids₁]; exact hN)
        (fun e' he' c hc => by rw [hids₁]; exact hsub e' (by simp [he']) c hc)
        (fun e' he' => hnd e' (by simp [he'])) with
      ⟨h', hrun', hent', hstart'⟩
    refine ⟨h', ?_, ?_, by rw [hstart', hstart₁]⟩
    · show addLinks h ((e.children.map fun c => ⟨e.entity_id, c⟩) ++
        es.flatMap fun e => e.children.map fun c => ⟨e.entity_id, c⟩) = .ok h'
      rw [addLinks_append_ok _ _ _ _ hrun₁]
      exact hrun'
    · rw [hent']
      simp [List.append_assoc]

/-- Serialize-then-rebuild: under the class invariants, a present start
and no empty-string descriptions, `build_from_data` on `to_dict` output
restores the entity table (hence the edge set) and the start id. -/
theorem build_to_dict_roundtrip {g : EntityGraph} (hV : g.Valid)
    (hstart : g.has_entity g.start = true)
    (hdesc : ∀ e ∈ g.entities, e.description ≠ some "") :
    ∃ g', build_from_data g.start g.to_dict = .ok g' ∧
      g'.entities = g.entities ∧ g'.start = g.start := by
  have hrecids : g.to_dict.entities.map EntityRecord.entity_id = g.ids := by
    show (g.entities.map Entity.to_dict).map EntityRecord.entity_id = g.ids
    rw [List.map_map]
    rfl
  have hN : ((⟨g.start, [], []⟩ : EntityGraph).ids ++
      g.to_dict.entities.map EntityRecord.entity_id).Nodup := by
    rw [hrecids]
    have : (⟨g.start, [], []⟩ : EntityGraph).ids = [] := by simp [ids]
    rw [this, List.nil_append]
    exact hV.1
  rcases addEntities_ok hN with ⟨g₁, hrun, hent, hstart₁, _⟩
  have hent₁ : g₁.entities = [] ++ g.entities.map clearChildren := by
    rw [hent]
    show ([] : List Entity) ++ (g.entities.map Entity.to_dict).map _ = _
    rw [List.map_map, List.nil_append, List.nil_append]
    apply List.map_congr_left
    intro e he
    show (⟨(Entity.to_dict e).entity_id, (Entity.to_dict e).name,
      (Entity.to_dict e).description, []⟩ : Entity) = clearChildren e
    have hd : (Entity.to_dict e).description = e.description := by
      unfold Entity.to_dict
      cases hdm : e.description with
      | none => rfl
      | some s =>
        have hne : s ≠ "" := by
          intro hs
          exact hdesc e he (by rw [hdm, hs])
        simp [hne]
    rw [hd]
    rfl
  have hids₁ : g₁.ids = g.ids := by
    rw [ids, hent₁, List.nil_append, List.map_map]
    rfl
  have hhas₁ : g₁.has_entity g.start = true := by
    rw [has_entity_iff, hids₁]
    exact has_entity_iff.mp hstart
  have hbuild : build_from_data g.start g.to_dict =
      addLinks g₁ g.to_dict.links := by
    unfold build_from_data
    rw [hrun]
    simp [hhas₁]
  rcases addLinks_replay g.entities [] g₁ (by rw [hent₁]) 
      (by rw [hids₁]; exact hV.1)
      (fun e he c hc => by rw [hids₁]; exact (hV.2 e he).1 c hc)
      (fun e he => (hV.2 e he).2) with ⟨g', hrun', hent', hstart'⟩
  refine ⟨g', ?_, by rw [hent', List.nil_append], by rw [hstart', hstart₁]⟩
  rw [hbuild]
  exact hrun'

end EntityGraph

/-! ### `generate_id` -/

namespace EntityCloner

theorem isUsed_iff_mem (cl : EntityCloner) (n : Int) :
    cl.isUsed n = true ↔ n ∈ cl.usedList := by
  unfold isUsed usedList
  cases cl.cloned_graph with
  | none => simp [EntityGraph.has_entity_iff]
  | some cg => simp [EntityGraph.has_entity_iff]

theorem isUsed_false_elim {cl : EntityCloner} {n : Int}
    (h : cl.isUsed n = false) :
    cl.initial_graph.has_entity n = false ∧
      ∀ cg, cl.cloned_graph = some cg → cg.has_entity n = false := by
  unfold isUsed at h
  cases hcg : cl.cloned_graph with
  | none =>
    rw [hcg] at h
    refine ⟨by simpa using h, ?_⟩
    intro cg h'
    exact Option.noConfusion h'
  | some cg =>
    rw [hcg] at h
    rw [Bool.or_eq_false_iff] at h
    refine ⟨h.1, ?_⟩
    intro cg' h'
    injection h' with h2
    rw [← h2]
    exact h.2

theorem genFrom_spec (cl : EntityCloner) :
    ∀ (fuel : Nat) (n : Int),
      (cl.usedList.toFinset.filter (fun x => n ≤ x)).card < fuel →
      cl.isUsed (genFrom cl fuel n) = false ∧ n ≤ genFrom cl fuel n := by
  intro fuel
  induction fuel with
  | zero => intro n h; exact absurd h (Nat.not_lt_zero _)
  | succ fuel ih =>
    intro n h
    show cl.isUsed (if cl.isUsed n then genFrom cl fuel (n + 1) else n)
        = false ∧ n ≤ (if cl.isUsed n then genFrom cl fuel (n + 1) else n)
    by_cases hu : cl.isUsed n = true
    · rw [if_pos hu]
      have hn : n ∈ cl.usedList.toFinset :=
        List.mem_toFinset.mpr ((isUsed_iff_mem cl n).mp hu)
      have hlt : (cl.usedList.toFinset.filter (fun x => n + 1 ≤ x)).card
          < fuel := by
        have hsub : insert n (cl.usedList.toFinset.filter
            (fun x => n + 1 ≤ x)) ⊆
            cl.usedList.toFinset.filter (fun x => n ≤ x) := by
          intro x hx
          rcases Finset.mem_insert.mp hx with rfl | hx'
          · exact Finset.mem_filter.mpr ⟨hn, le_refl _⟩
          · rcases Finset.mem_filter.mp hx' with ⟨hx1, hx2⟩
            exact Finset.mem_filter.mpr ⟨hx1, by omega⟩
        have hcard := Finset.card_le_card hsub
        have hni : n ∉ cl.usedList.toFinset.filter (fun x => n + 1 ≤ x) := by
          intro hmem
          have := (Finset.mem_filter.mp hmem).2
          omega
        rw [Finset.card_insert_of_not_mem hni] at hcard
        omega
      rcases ih (n + 1) hlt with ⟨h1, h2⟩
      exact ⟨h1, by omega⟩
    · rw [if_neg hu]
      exact ⟨by simpa using hu, le_refl n⟩

theorem generate_id_spec (cl : EntityCloner) :
    cl._current_id < (cl.generate_id).1 ∧
      (cl.generate_id).2 = { cl with _current_id := (cl.generate_id).1 } ∧
      cl.isUsed (cl.generate_id).1 = false := by
  have hfuel : (cl.usedList.toFinset.filter
      (fun x => cl._current_id + 1 ≤ x)).card < cl.usedList.length + 1 := by
    have h1 : (cl.usedList.toFinset.filter
        (fun x => cl._current_id + 1 ≤ x)).card ≤ cl.usedList.toFinset.card :=
      Finset.card_filter_le _ _
    have h2 : cl.usedList.toFinset.card ≤ cl.usedList.length :=
      cl.usedList.toFinset_card_le
    omega
  rcases genFrom_spec cl (cl.usedList.length + 1) (cl._current_id + 1)
    hfuel with ⟨h1, h2⟩
  refine ⟨?_, rfl, h1⟩
  show cl._current_id < genFrom cl (cl.usedList.length + 1) (cl._current_id + 1)
  omega

end EntityCloner

/-! ### The `visited` dictionary -/

theorem lookupV_mem {v : List (Int × Int)} {k c : Int}
    (h : lookupV v k = some c) : (k, c) ∈ v := by
  unfold lookupV at h
  rcases Option.map_eq_some'.mp h with ⟨p, hp, hpc⟩
  have hm := List.mem_of_find?_eq_some hp
  have hk := List.find?_some hp
  cases p with
  | mk a b =>
    have ha : a = k := by simpa using hk
    have hb : b = c := hpc
    rw [← ha, ← hb]
    exact hm

theorem lookupV_none_iff {v : List (Int × Int)} {k : Int} :
    lookupV v k = none ↔ k ∉ v.map Prod.fst := by
  unfold lookupV
  rw [Option.map_eq_none', List.find?_eq_none]
  constructor
  · intro h hmem
    rcases List.mem_map.mp hmem with ⟨p, hp, hk⟩
    exact h p hp (by simpa using hk)
  · intro h p hp hpk
    exact h (List.mem_map.mpr ⟨p, hp, by simpa using hpk⟩)

theorem lookupV_some_of_mem_keys {v : List (Int × Int)} {k : Int}
    (h : k ∈ v.map Prod.fst) : ∃ c, lookupV v k = some c := by
  cases hl : lookupV v k with
  | none => exact absurd h (lookupV_none_iff.mp hl)
  | some c => exact ⟨c, rfl⟩

theorem lookupV_mem_keys {v : List (Int × Int)} {k c : Int}
    (h : lookupV v k = some c) : k ∈ v.map Prod.fst :=
  List.mem_map.mpr ⟨(k, c), lookupV_mem h, rfl⟩

theorem lookupV_mem_vals {v : List (Int × Int)} {k c : Int}
    (h : lookupV v k = some c) : c ∈ v.map Prod.snd :=
  List.mem_map.mpr ⟨(k, c), lookupV_mem h, rfl⟩

theorem mem_lookupV {v : List (Int × Int)}
    (hN : (v.map Prod.fst).Nodup) {k c : Int} (h : (k, c) ∈ v) :
    lookupV v k = some c := by
  induction v with
  | nil => cases h
  | cons p v ih =>
    rcases List.mem_cons.mp h with rfl | h'
    · unfold lookupV
      rw [List.find?_cons_of_pos _ (by simp)]
      rfl
    · have hpk : p.1 ≠ k := by
        intro hEq
        have hkm : k ∈ v.map Prod.fst := List.mem_map.mpr ⟨(k, c), h', rfl⟩
        rw [List.map_cons] at hN
        exact (List.nodup_cons.mp hN).1 (hEq ▸ hkm)
      unfold lookupV
      rw [List.find?_cons_of_neg _ (by simp [hpk])]
      exact ih (by rw [List.map_cons] at hN; exact (List.nodup_cons.mp hN).2) h'

theorem lookupV_append_left {v w : List (Int × Int)} {k c : Int}
    (h : lookupV v k = some c) : lookupV (v ++ w) k = some c := by
  unfold lookupV at h ⊢
  rcases Option.map_eq_some'.mp h with ⟨p, hp, hpc⟩
  rw [EntityGraph.find?_append_left hp]
  rw [← hpc]
  rfl

theorem lookupV_append_right {v w : List (Int × Int)} {k : Int}
    (h : lookupV v k = none) : lookupV (v ++ w) k = lookupV w k := by
  unfold lookupV at h ⊢
  rw [Option.map_eq_none'] at h
  rw [EntityGraph.find?_append_none h]

theorem lookupV_inj {v : List (Int × Int)}
    (hN : (v.map Prod.snd).Nodup) {a b c : Int}
    (ha : lookupV v a = some c) (hb : lookupV v b = some c) : a = b := by
  have hma := lookupV_mem ha
  have hmb := lookupV_mem hb
  have hpq : (a, c) = (b, c) :=
    List.inj_on_of_nodup_map hN hma hmb rfl
  exact congrArg Prod.fst hpq

/-! ### One step of child processing -/

theorem cloneStep_cases {st : BfsState} {current : Entity} {c : Int}
    {st' : BfsState} (h : cloneStep st current c = .ok st') :
    (∃ cc pc cg₁, lookupV st.visited c = some cc ∧
      lookupV st.visited current.entity_id = some pc ∧
      st.cg.add_link pc cc = .ok cg₁ ∧ st' = { st with cg := cg₁ }) ∨
    (∃ child i cl₂ pc cg₁ cg₂,
      lookupV st.visited c = none ∧
      st.ig.get_entity c = some child ∧
      EntityCloner.generate_id ⟨st.ig, some st.cg, st.cur⟩ = (i, cl₂) ∧
      st.cg.add_entity i child.name child.description = .ok cg₁ ∧
      lookupV st.visited current.entity_id = some pc ∧
      cg₁.add_link pc i = .ok cg₂ ∧
      st' = { st with
              cg := cg₂, cur := cl₂._current_id,
              visited := st.visited ++ [(c, i)],
              queue := st.queue ++ [child] }) := by
  unfold cloneStep at h
  split at h
  next hvc =>
    split at h
    next hge => cases h
    next child hge =>
      split at h
      next i cl₂ hgen =>
        split at h
        next e hae => cases h
        next cg₁ hae =>
          split at h
          next hpc => cases h
          next pc hpc =>
            split at h
            next e hal => cases h
            next cg₂ hal =>
              cases h
              exact Or.inr ⟨child, i, cl₂, pc, cg₁, cg₂, hvc, hge, hgen,
                hae, hpc, hal, rfl⟩
  next cc hvc =>
    split at h
    next hpc => cases h
    next pc hpc =>
      split at h
      next e hal => cases h
      next cg₁ hal =>
        cases h
        exact Or.inl ⟨cc, pc, cg₁, hvc, hpc, hal, rfl⟩

theorem cloneStep_seen {st : BfsState} {current : Entity} {c cc pc : Int}
    {cg₁ : EntityGraph} (hvc : lookupV st.visited c = some cc)
    (hpc : lookupV st.visited current.entity_id = some pc)
    (hlk : st.cg.add_link pc cc = .ok cg₁) :
    cloneStep st current c = .ok { st with cg := cg₁ } := by
  unfold cloneStep
  simp only [hvc, hpc, hlk]

theorem cloneStep_unseen {st : BfsState} {current : Entity} {c : Int}
    {child : Entity} {i : Int} {cl₂ : EntityCloner} {pc : Int}
    {cg₁ cg₂ : EntityGraph}
    (hvc : lookupV st.visited c = none)
    (hge : st.ig.get_entity c = some child)
    (hgen : EntityCloner.generate_id ⟨st.ig, some st.cg, st.cur⟩ = (i, cl₂))
    (hae : st.cg.add_entity i child.name child.description = .ok cg₁)
    (hpc : lookupV st.visited current.entity_id = some pc)
    (hal : cg₁.add_link pc i = .ok cg₂) :
    cloneStep st current c = .ok { st with
      cg := cg₂, cur := cl₂._current_id,
      visited := st.visited ++ [(c, i)],
      queue := st.queue ++ [child] } := by
  unfold cloneStep
  simp only [hvc, hge, hgen, hae, hpc, hal]

theorem processChildren_cons_ok {st st₁ : BfsState} {current : Entity}
    {c : Int} {cs : List Int} (h : cloneStep st current c = .ok st₁) :
    processChildren st current (c :: cs) = processChildren st₁ current cs := by
  simp only [processChildren, h]

theorem get_entity_add_link_pres {cgA cgB : EntityGraph} {f t : Int}
    (h : cgA.add_link f t = .ok cgB) {x : Int} {e' : Entity}
    (he' : cgA.get_entity x = some e') :
    ∃ e'', cgB.get_entity x = some e'' ∧ e''.name = e'.name ∧
      e''.description = e'.description := by
  refine ⟨if e'.entity_id == f then e'.add_child t else e', ?_, ?_, ?_⟩
  · rw [EntityGraph.add_link_get_entity h x, he']
    rfl
  · split <;> simp [Entity.add_child_name]
  · split <;> simp [Entity.add_child_description]

/-- Running the `for child in current.children` loop from a state
satisfying the core invariant succeeds; `visited` and the queue grow in
lockstep, every processed child ends up visited, and the cloned edges
gained are exactly the links from the parent's clone to the clones of
the processed children. -/
theorem processChildren_spec (ig : EntityGraph) :
    ∀ (cs : List Int) (st : BfsState) (current : Entity) (pc : Int),
      CoreInv ig st →
      (∀ c ∈ cs, c ∈ ig.ids) →
      (∀ c ∈ cs, edgeIn ig current.entity_id c) →
      Reaches ig ig.start current.entity_id →
      lookupV st.visited current.entity_id = some pc →
      ∃ st' newv newq,
        processChildren st current cs = .ok st' ∧
        CoreInv ig st' ∧
        st'.visited = st.visited ++ newv ∧
        st'.queue = st.queue ++ newq ∧
        newq.map Entity.entity_id = newv.map Prod.fst ∧
        (∀ p ∈ newv, p.1 ∈ cs ∧ p.1 ∉ st.visited.map Prod.fst) ∧
        (∀ c ∈ cs, c ∈ st'.visited.map Prod.fst) ∧
        (∀ cu cv, edgeIn st'.cg cu cv ↔ edgeIn st.cg cu cv ∨
          (cu = pc ∧ ∃ c ∈ cs, lookupV st'.visited c = some cv)) := by
  intro cs
  induction cs with
  | nil =>
    intro st current pc hInv _ _ _ _
    refine ⟨st, [], [], rfl, hInv, (List.append_nil _).symm,
      (List.append_nil _).symm, rfl, ?_, ?_, ?_⟩
    · intro p hp; cases hp
    · intro c hc; cases hc
    · intro cu cv
      constructor
      · exact fun h => Or.inl h
      · rintro (h | ⟨_, c, hc, _⟩)
        · exact h
        · cases hc
  | cons c cs ih =>
    intro st current pc hInv hcs hedge hreach hpc
    have hcm : c ∈ ig.ids := hcs c (by simp)
    cases hvc : lookupV st.visited c with
    | some cc =>
      have hpcv : pc ∈ st.cg.ids := by
        rw [hInv.lock]; exact lookupV_mem_vals hpc
      have hccv : cc ∈ st.cg.ids := by
        rw [hInv.lock]; exact lookupV_mem_vals hvc
      rcases EntityGraph.add_link_isOk_iff.mpr
          ⟨EntityGraph.has_entity_iff.mpr hpcv,
           EntityGraph.has_entity_iff.mpr hccv⟩ with ⟨cg₁, hlk⟩
      have hInv₁ : CoreInv ig { st with cg := cg₁ } := by
        refine ⟨hInv.frame, ?_, hInv.keysN, hInv.valsN, ?_, ?_, hInv.reach,
          hInv.qmem, hInv.qvis, hInv.qnd⟩
        · show cg₁.ids = st.visited.map Prod.snd
          rw [EntityGraph.add_link_ids hlk]; exact hInv.lock
        · intro p hp
          rcases hInv.fidelity p hp with ⟨e, e', hie, hce, hnm, hds⟩
          rcases get_entity_add_link_pres hlk hce with ⟨e'', hce'', hnm'', hds''⟩
          exact ⟨e, e'', hie, hce'', by rw [hnm'', hnm], by rw [hds'', hds]⟩
        · intro j hj
          show ig.has_entity j = false
          have hj' : j ∈ st.cg.ids := by
            rw [← EntityGraph.add_link_ids hlk]; exact hj
          exact hInv.disj j hj'
      rcases ih { st with cg := cg₁ } current pc hInv₁
          (fun c' hc' => hcs c' (by simp [hc']))
          (fun c' hc' => hedge c' (by simp [hc'])) hreach hpc with
        ⟨st', newv, newq, hrun, hInv', hv', hq', hlq', hnewv, hall, hedges⟩
      have hstep : cloneStep st current c = .ok { st with cg := cg₁ } :=
        cloneStep_seen hvc hpc hlk
      refine ⟨st', newv, newq, ?_, hInv', hv', hq', hlq', ?_, ?_, ?_⟩
      · rw [processChildren_cons_ok hstep]; exact hrun
      · intro p hp
        rcases hnewv p hp with ⟨h1, h2⟩
        exact ⟨by simp [h1], h2⟩
      · intro c' hc'
        rcases List.mem_cons.mp hc' with rfl | hc''
        · rw [hv', List.map_append]
          exact List.mem_append.mpr (Or.inl (lookupV_mem_keys hvc))
        · exact hall c' hc''
      · intro cu cv
        rw [hedges cu cv, EntityGraph.edgeIn_add_link hlk cu cv]
        constructor
        · rintro ((h | ⟨rfl, rfl⟩) | ⟨rfl, c', hc', hl⟩)
          · exact Or.inl h
          · refine Or.inr ⟨rfl, c, by simp, ?_⟩
            rw [hv']
            exact lookupV_append_left hvc
          · exact Or.inr ⟨rfl, c', by simp [hc'], hl⟩
        · rintro (h | ⟨rfl, c', hc', hl⟩)
          · exact Or.inl (Or.inl h)
          · rcases List.mem_cons.mp hc' with rfl | hc''
            · have hlc : lookupV st'.visited c' = some cc := by
                rw [hv']
                exact lookupV_append_left hvc
              rw [hlc] at hl
              cases hl
              exact Or.inl (Or.inr ⟨rfl, rfl⟩)
            · exact Or.inr ⟨rfl, c', hc'', hl⟩
    | none =>
      have hframe := hInv.frame
      rcases EntityGraph.get_entity_some_of_mem_ids hcm with ⟨child, hge, hcid⟩
      have hge' : st.ig.get_entity c = some child := by rw [hframe]; exact hge
      rcases hgeneq : EntityCloner.generate_id ⟨st.ig, some st.cg, st.cur⟩
        with ⟨i, cl₂⟩
      have hfresh : EntityCloner.isUsed ⟨st.ig, some st.cg, st.cur⟩ i = false := by
        have hs := (EntityCloner.generate_id_spec
          ⟨st.ig, some st.cg, st.cur⟩).2.2
        rw [hgeneq] at hs
        exact hs
      rcases EntityCloner.isUsed_false_elim hfresh with ⟨hfig, hfcg⟩
      have hfig' : ig.has_entity i = false := by rw [← hframe]; exact hfig
      have hfcg' : st.cg.has_entity i = false := hfcg st.cg rfl
      obtain ⟨cg₁, hae⟩ :
          ∃ cg₁, st.cg.add_entity i child.name child.description = .ok cg₁ :=
        ⟨_, EntityGraph.add_entity_ok hfcg'⟩
      have hpcv : pc ∈ st.cg.ids := by
        rw [hInv.lock]; exact lookupV_mem_vals hpc
      have hids₁ : cg₁.ids = st.cg.ids ++ [i] := EntityGraph.add_entity_ids hae
      have hpc₁ : cg₁.has_entity pc = true :=
        EntityGraph.has_entity_iff.mpr
          (by rw [hids₁]; exact List.mem_append.mpr (Or.inl hpcv))
      have hi₁ : cg₁.has_entity i = true :=
        EntityGraph.has_entity_iff.mpr (by rw [hids₁]; simp)
      rcases EntityGraph.add_link_isOk_iff.mpr ⟨hpc₁, hi₁⟩ with ⟨cg₂, hal⟩
      have hInv₁ : CoreInv ig { st with
          cg := cg₂, cur := cl₂._current_id,
          visited := st.visited ++ [(c, i)],
          queue := st.queue ++ [child] } := by
        refine ⟨hInv.frame, ?_, ?_, ?_, ?_, ?_, ?_, ?_, ?_, ?_⟩
        · show cg₂.ids = (st.visited ++ [(c, i)]).map Prod.snd
          rw [EntityGraph.add_link_ids hal, hids₁, hInv.lock, List.map_append]
          rfl
        · show ((st.visited ++ [(c, i)]).map Prod.fst).Nodup
          rw [List.map_append]
          simp [List.nodup_append, hInv.keysN, lookupV_none_iff.mp hvc]
        · show ((st.visited ++ [(c, i)]).map Prod.snd).Nodup
          rw [List.map_append]
          have hiv : i ∉ st.visited.map Prod.snd := by
            rw [← hInv.lock]
            exact EntityGraph.has_entity_false_iff.mp hfcg'
          simp [List.nodup_append, hInv.valsN, hiv]
        · intro p hp
          rcases List.mem_append.mp hp with hp' | hp'
          · rcases hInv.fidelity p hp' with ⟨e, e', hie, hce, hnm, hds⟩
            have hce₁ : cg₁.get_entity p.2 = some e' :=
              EntityGraph.add_entity_get_old hae hce
            rcases get_entity_add_link_pres hal hce₁ with
              ⟨e'', hce₂, hnm'', hds''⟩
            exact ⟨e, e'', hie, hce₂, by rw [hnm'', hnm], by rw [hds'', hds]⟩
          · rw [List.mem_singleton] at hp'
            subst hp'
            have hnew : cg₁.get_entity i =
                some ⟨i, child.name, child.description, []⟩ :=
              EntityGraph.add_entity_get_new hae hfcg'
            rcases get_entity_add_link_pres hal hnew with
              ⟨e'', hce₂, hnm'', hds''⟩
            exact ⟨child, e'', hge, hce₂, hnm'', hds''⟩
        · intro j hj
          show ig.has_entity j = false
          have hj' : j ∈ cg₁.ids := by
            rw [← EntityGraph.add_link_ids hal]; exact hj
          rw [hids₁] at hj'
          rcases List.mem_append.mp hj' with hj'' | hj''
          · exact hInv.disj j hj''
          · rw [List.mem_singleton] at hj''
            subst hj''
            exact hfig'
        · intro p hp
          rcases List.mem_append.mp hp with hp' | hp'
          · exact hInv.reach p hp'
          · rw [List.mem_singleton] at hp'
            subst hp'
            exact Relation.ReflTransGen.tail hreach (hedge c (by simp))
        · intro e he
          rcases List.mem_append.mp he with he' | he'
          · exact hInv.qmem e he'
          · rw [List.mem_singleton] at he'
            subst he'
            exact (EntityGraph.get_entity_eq_some hge).1
        · intro e he
          show e.entity_id ∈ (st.visited ++ [(c, i)]).map Prod.fst
          rw [List.map_append]
          rcases List.mem_append.mp he with he' | he'
          · exact List.mem_append.mpr (Or.inl (hInv.qvis e he'))
          · rw [List.mem_singleton] at he'
            subst he'
            refine List.mem_append.mpr (Or.inr ?_)
            rw [(EntityGraph.get_entity_eq_some hge).2]
            simp
        · show ((st.queue ++ [child]).map Entity.entity_id).Nodup
          rw [List.map_append]
          have hcq : c ∉ st.queue.map Entity.entity_id := by
            intro hcq
            rcases List.mem_map.mp hcq with ⟨e, he, hide⟩
            have hk := hInv.qvis e he
            rw [hide] at hk
            exact (lookupV_none_iff.mp hvc) hk
          have hch : [child].map Entity.entity_id = [c] := by
            rw [List.map_cons, (EntityGraph.get_entity_eq_some hge).2]
            rfl
          rw [hch]
          simp [List.nodup_append, hInv.qnd, hcq]
      rcases ih { st with
          cg := cg₂, cur := cl₂._current_id,
          visited := st.visited ++ [(c, i)],
          queue := st.queue ++ [child] } current pc hInv₁
          (fun c' hc' => hcs c' (by simp [hc']))
          (fun c' hc' => hedge c' (by simp [hc'])) hreach
          (by show lookupV (st.visited ++ [(c, i)]) current.entity_id = some pc
              exact lookupV_append_left hpc) with
        ⟨st', newv', newq', hrun, hInv', hv', hq', hlq', hnewv', hall', hedges'⟩
      have hstep := cloneStep_unseen hvc hge' hgeneq hae hpc hal
      have hlc : lookupV st'.visited c = some i := by
        rw [hv']
        apply lookupV_append_left
        show lookupV (st.visited ++ [(c, i)]) c = some i
        rw [lookupV_append_right hvc]
        unfold lookupV
        rw [List.find?_cons_of_pos _ (by simp)]
        rfl
      refine ⟨st', (c, i) :: newv', child :: newq', ?_, hInv', ?_, ?_, ?_,
        ?_, ?_, ?_⟩
      · rw [processChildren_cons_ok hstep]; exact hrun
      · rw [hv']
        show (st.visited ++ [(c, i)]) ++ newv' = st.visited ++ (c, i) :: newv'
        rw [List.append_assoc, List.singleton_append]
      · rw [hq']
        show (st.queue ++ [child]) ++ newq' = st.queue ++ child :: newq'
        rw [List.append_assoc, List.singleton_append]
      · show (child :: newq').map Entity.entity_id = ((c, i) :: newv').map Prod.fst
        rw [List.map_cons, List.map_cons, hlq',
          (EntityGraph.get_entity_eq_some hge).2]
      · intro p hp
        rcases List.mem_cons.mp hp with rfl | hp'
        · exact ⟨by simp, lookupV_none_iff.mp hvc⟩
        · rcases hnewv' p hp' with ⟨h1, h2⟩
          refine ⟨by simp [h1], ?_⟩
          intro hmem
          refine h2 ?_
          show p.1 ∈ (st.visited ++ [(c, i)]).map Prod.fst
          rw [List.map_append]
          exact List.mem_append.mpr (Or.inl hmem)
      · intro c' hc'
        rcases List.mem_cons.mp hc' with rfl | hc''
        · rw [hv', List.map_append]
          refine List.mem_append.mpr (Or.inl ?_)
          show c' ∈ (st.visited ++ [(c', i)]).map Prod.fst
          rw [List.map_append]
          refine List.mem_append.mpr (Or.inr ?_)
          simp
        · exact hall' c' hc''
      · intro cu cv
        rw [hedges' cu cv, EntityGraph.edgeIn_add_link hal cu cv,
          EntityGraph.edgeIn_add_entity hae cu cv]
        constructor
        · rintro ((h | ⟨rfl, rfl⟩) | ⟨rfl, c', hc', hl⟩)
          · exact Or.inl h
          · exact Or.inr ⟨rfl, c, by simp, hlc⟩
          · exact Or.inr ⟨rfl, c', by simp [hc'], hl⟩
        · rintro (h | ⟨rfl, c', hc', hl⟩)
          · exact Or.inl (Or.inl h)
          · rcases List.mem_cons.mp hc' with rfl | hc''
            · rw [hlc] at hl
              cases hl
              exact Or.inl (Or.inr ⟨rfl, rfl⟩)
            · exact Or.inr ⟨rfl, c', hc'', hl⟩

/-- The `while not queue.empty()` loop: from any state satisfying the
full invariant, with fuel at least the queue length plus the number of
unvisited ids, the loop runs to completion (never exhausting the fuel),
preserves the invariant, empties the queue and only appends to
`visited`. -/
theorem bfsLoop_spec (ig : EntityGraph) (hV : ig.Valid) :
    ∀ (fuel : Nat) (st : BfsState),
      CloneInv ig st →
      st.queue.length +
        (ig.ids.toFinset \ (st.visited.map Prod.fst).toFinset).card ≤ fuel →
      ∃ st', bfsLoop fuel st = .ok st' ∧ CloneInv ig st' ∧ st'.queue = [] ∧
        ∃ tail, st'.visited = st.visited ++ tail := by
  intro fuel
  induction fuel with
  | zero =>
    intro st hInv hfuel
    obtain ⟨sig, scg, scur, sv, sq⟩ := st
    cases sq with
    | nil =>
      exact ⟨⟨sig, scg, scur, sv, []⟩, rfl, hInv, rfl,
        ⟨[], (List.append_nil _).symm⟩⟩
    | cons a l =>
      exfalso
      simp at hfuel
  | succ fuel ihf =>
    intro st hInv hfuel
    obtain ⟨sig, scg, scur, sv, sq⟩ := st
    cases sq with
    | nil =>
      exact ⟨⟨sig, scg, scur, sv, []⟩, rfl, hInv, rfl,
        ⟨[], (List.append_nil _).symm⟩⟩
    | cons current rest =>
      have hcur_mem : current ∈ ig.entities := hInv.qmem current (by simp)
      have hcur_keys : current.entity_id ∈ sv.map Prod.fst :=
        hInv.qvis current (by simp)
      rcases lookupV_some_of_mem_keys hcur_keys with ⟨pc, hpc⟩
      have hreach : Reaches ig ig.start current.entity_id := by
        rcases List.mem_map.mp hcur_keys with ⟨p, hp, hpeq⟩
        have hr := hInv.reach p hp
        rw [hpeq] at hr
        exact hr
      have hqnd : (current.entity_id :: rest.map Entity.entity_id).Nodup :=
        hInv.qnd
      have hInv₁ : CoreInv ig ⟨sig, scg, scur, sv, rest⟩ := by
        refine ⟨hInv.frame, hInv.lock, hInv.keysN, hInv.valsN, hInv.fidelity,
          hInv.disj, hInv.reach, ?_, ?_, ?_⟩
        · intro e he; exact hInv.qmem e (by simp [he])
        · intro e he; exact hInv.qvis e (by simp [he])
        · exact (List.nodup_cons.mp hqnd).2
      have hvid : ig.ids.Nodup := hV.1
      have hgetcur : ig.get_entity current.entity_id = some current :=
        EntityGraph.get_entity_of_mem hvid hcur_mem
      have hcs : ∀ c ∈ current.children, c ∈ ig.ids :=
        fun c hc => (hV.2 current hcur_mem).1 c hc
      have hedgec : ∀ c ∈ current.children, edgeIn ig current.entity_id c :=
        fun c hc => ⟨current, hcur_mem, rfl, hc⟩
      rcases processChildren_spec ig current.children
          ⟨sig, scg, scur, sv, rest⟩ current pc hInv₁ hcs hedgec hreach hpc with
        ⟨st₂, newv, newq, hrun, hCore₂, hv₂, hq₂, hlq₂, hnewv, hall, hedges⟩
      have hclosure : ∀ a ∈ st₂.visited.map Prod.fst,
          a ∉ st₂.queue.map Entity.entity_id →
          ∀ e, ig.get_entity a = some e → ∀ c ∈ e.children,
            c ∈ st₂.visited.map Prod.fst := by
        intro a ha hq3 e hge c hc
        rw [hv₂, List.map_append] at ha
        rw [hq₂, List.map_append] at hq3
        rcases List.mem_append.mp ha with ha' | ha'
        · by_cases hac : a = current.entity_id
          · subst hac
            rw [hgetcur] at hge
            cases hge
            exact hall c hc
          · have hnotq : a ∉ (current :: rest).map Entity.entity_id := by
              rw [List.map_cons]
              intro hmem
              rcases List.mem_cons.mp hmem with h1 | h1
              · exact hac h1
              · exact hq3 (List.mem_append.mpr (Or.inl h1))
            have hck := hInv.closure a ha' hnotq e hge c hc
            rw [hv₂, List.map_append]
            exact List.mem_append.mpr (Or.inl hck)
        · exfalso
          apply hq3
          refine List.mem_append.mpr (Or.inr ?_)
          rw [hlq₂]
          exact ha'
      have hedges₂ : ∀ cu cv, edgeIn st₂.cg cu cv ↔ ∃ u v,
          lookupV st₂.visited u = some cu ∧ lookupV st₂.visited v = some cv ∧
          u ∉ st₂.queue.map Entity.entity_id ∧ edgeIn ig u v := by
        intro cu cv
        rw [hedges cu cv]
        constructor
        · rintro (h | ⟨rfl, c', hc', hl⟩)
          · rcases (hInv.edges cu cv).mp h with ⟨u, v, hu, hv, hnq, he⟩
            refine ⟨u, v, ?_, ?_, ?_, he⟩
            · rw [hv₂]; exact lookupV_append_left hu
            · rw [hv₂]; exact lookupV_append_left hv
            · rw [hq₂, List.map_append]
              intro hmem
              rcases List.mem_append.mp hmem with h1 | h1
              · refine hnq ?_
                show u ∈ current.entity_id :: rest.map Entity.entity_id
                exact List.mem_cons.mpr (Or.inr h1)
              · rw [hlq₂] at h1
                rcases List.mem_map.mp h1 with ⟨p, hp, hpeq⟩
                rcases hnewv p hp with ⟨_, hpn⟩
                exact hpn (by rw [hpeq]; exact lookupV_mem_keys hu)
          · refine ⟨current.entity_id, c', ?_, hl, ?_, hedgec c' hc'⟩
            · rw [hv₂]; exact lookupV_append_left hpc
            · rw [hq₂, List.map_append]
              intro hmem
              rcases List.mem_append.mp hmem with h1 | h1
              · exact (List.nodup_cons.mp hqnd).1 h1
              · rw [hlq₂] at h1
                rcases List.mem_map.mp h1 with ⟨p, hp, hpeq⟩
                rcases hnewv p hp with ⟨_, hpn⟩
                exact hpn (by rw [hpeq]; exact hcur_keys)
        · rintro ⟨u, v, hu, hv, hnq, he⟩
          have hukeys := lookupV_mem_keys hu
          rw [hv₂, List.map_append] at hukeys
          rcases List.mem_append.mp hukeys with hu' | hu'
          · rcases lookupV_some_of_mem_keys hu' with ⟨cu', hcu'⟩
            have hcu'' : lookupV st₂.visited u = some cu' := by
              rw [hv₂]; exact lookupV_append_left hcu'
            have hcu2 : lookupV sv u = some cu := by
              rw [hcu']
              exact hcu''.symm.trans hu
            by_cases huc : u = current.entity_id
            · subst huc
              have hcupc : cu = pc := by
                have h0 := hcu2.symm.trans hpc
                injection h0
              rcases he with ⟨e, hem, heid, hvc2⟩
              have hecur : e = current := by
                have hge2 := EntityGraph.get_entity_of_mem hvid hem
                rw [heid, hgetcur] at hge2
                injection hge2 with h0'
                exact h0'.symm
              subst hecur
              exact Or.inr ⟨hcupc, v, hvc2, hv⟩
            · have hnr : u ∉ (current :: rest).map Entity.entity_id := by
                rw [List.map_cons]
                intro hmem
                rcases List.mem_cons.mp hmem with h1 | h1
                · exact huc h1
                · refine hnq ?_
                  rw [hq₂, List.map_append]
                  exact List.mem_append.mpr (Or.inl h1)
              rcases he with ⟨e, hem, heid, hvc2⟩
              have hgeu : ig.get_entity u = some e := by
                have h0 := EntityGraph.get_entity_of_mem hvid hem
                rw [heid] at h0
                exact h0
              have hvk : v ∈ sv.map Prod.fst :=
                hInv.closure u hu' hnr e hgeu v hvc2
              rcases lookupV_some_of_mem_keys hvk with ⟨cv', hcv'⟩
              have hcv'' : lookupV st₂.visited v = some cv' := by
                rw [hv₂]; exact lookupV_append_left hcv'
              have hcv2 : lookupV sv v = some cv := by
                rw [hcv']
                exact hcv''.symm.trans hv
              have hold : edgeIn scg cu cv :=
                (hInv.edges cu cv).mpr ⟨u, v, hcu2, hcv2, hnr, e, hem, heid, hvc2⟩
              exact Or.inl hold
          · exfalso
            apply hnq
            rw [hq₂, List.map_append]
            refine List.mem_append.mpr (Or.inr ?_)
            rw [hlq₂]
            exact hu'
      have hInv₂ : CloneInv ig st₂ := ⟨hCore₂, hclosure, hedges₂⟩
      have hlen : newq.length = newv.length := by
        have h0 := congrArg List.length hlq₂
        simpa using h0
      have hknodup : (newv.map Prod.fst).Nodup := by
        have hk := hCore₂.keysN
        rw [hv₂, List.map_append] at hk
        exact ((List.nodup_append.mp hk).2).1
      have hsub : (newv.map Prod.fst).toFinset ⊆
          ig.ids.toFinset \ (sv.map Prod.fst).toFinset := by
        intro x hx
        rw [List.mem_toFinset] at hx
        rcases List.mem_map.mp hx with ⟨p, hp, hpeq⟩
        rcases hnewv p hp with ⟨h1, h2⟩
        rw [Finset.mem_sdiff, List.mem_toFinset, List.mem_toFinset]
        constructor
        · rw [← hpeq]
          exact hcs p.1 h1
        · rw [← hpeq]
          exact h2
      have hcardnew : (newv.map Prod.fst).toFinset.card = newv.length := by
        rw [List.toFinset_card_of_nodup hknodup]
        simp
      have hsd : ig.ids.toFinset \ (st₂.visited.map Prod.fst).toFinset =
          (ig.ids.toFinset \ (sv.map Prod.fst).toFinset) \
            (newv.map Prod.fst).toFinset := by
        rw [hv₂, List.map_append, List.toFinset_append]
        ext x
        simp only [Finset.mem_sdiff, Finset.mem_union]
        tauto
      have hfuel₂ : st₂.queue.length +
          (ig.ids.toFinset \ (st₂.visited.map Prod.fst).toFinset).card
            ≤ fuel := by
        have hqlen : st₂.queue.length = rest.length + newq.length := by
          rw [hq₂]
          simp
        have hcard : (ig.ids.toFinset \
            (st₂.visited.map Prod.fst).toFinset).card =
            (ig.ids.toFinset \ (sv.map Prod.fst).toFinset).card
              - newv.length := by
          rw [hsd, Finset.card_sdiff hsub, hcardnew]
        have hle : newv.length ≤
            (ig.ids.toFinset \ (sv.map Prod.fst).toFinset).card := by
          rw [← hcardnew]
          exact Finset.card_le_card hsub
        have hfuel' : rest.length + 1 +
            (ig.ids.toFinset \ (sv.map Prod.fst).toFinset).card
              ≤ fuel + 1 := by
          simpa [Nat.add_comm, Nat.add_assoc, Nat.add_left_comm] using hfuel
        rw [hqlen, hlen, hcard]
        omega
      rcases ihf st₂ hInv₂ hfuel₂ with ⟨st', hrun', hInv', hq', tail, hv'⟩
      refine ⟨st', ?_, hInv', hq', ⟨newv ++ tail, ?_⟩⟩
      · have hstep : bfsLoop (fuel + 1) ⟨sig, scg, scur, sv, current :: rest⟩ =
            match processChildren ⟨sig, scg, scur, sv, rest⟩ current
                current.children with
            | .error e => .error e
            | .ok stx => bfsLoop fuel stx := rfl
        rw [hstep]
        simp only [hrun]
        exact hrun'
      · rw [hv', hv₂]
        show (sv ++ newv) ++ tail = sv ++ (newv ++ tail)
        rw [List.append_assoc]

/-- `clone_subgraph` on a class-invariant graph with a present start id:
the whole run succeeds and the final loop state satisfies the full
invariant with an empty queue; the `visited` map starts with the
start-to-cloned-start entry. -/
theorem cloneFull_spec (cl : EntityCloner) (hV : cl.initial_graph.Valid)
    (hstart : cl.initial_graph.has_entity cl.initial_graph.start = true) :
    ∃ st, cloneFull cl = .ok st ∧ CloneInv cl.initial_graph st ∧
      st.queue = [] ∧
      ∃ i tail, st.visited = (cl.initial_graph.start, i) :: tail := by
  have hmem : cl.initial_graph.start ∈ cl.initial_graph.ids :=
    EntityGraph.has_entity_iff.mp hstart
  rcases EntityGraph.get_entity_some_of_mem_ids hmem with ⟨root, hroot, hrootid⟩
  rcases hgen : cl.generate_id with ⟨cs, cl₁⟩
  have hfresh : cl.isUsed cs = false := by
    have h0 := (EntityCloner.generate_id_spec cl).2.2
    rw [hgen] at h0
    exact h0
  have hfig : cl.initial_graph.has_entity cs = false :=
    (EntityCloner.isUsed_false_elim hfresh).1
  have hempty : (⟨cs, [], []⟩ : EntityGraph).has_entity cs = false := rfl
  have hae : (⟨cs, [], []⟩ : EntityGraph).add_entity cs root.name
      root.description =
      .ok ⟨cs, [⟨cs, root.name, root.description, []⟩], []⟩ :=
    EntityGraph.add_entity_ok hempty
  have hgetcg : (⟨cs, [⟨cs, root.name, root.description, []⟩], []⟩ :
      EntityGraph).get_entity cs =
      some ⟨cs, root.name, root.description, []⟩ :=
    List.find?_cons_of_pos _ (by simp)
  have hInvInit : CloneInv cl.initial_graph
      ⟨cl.initial_graph, ⟨cs, [⟨cs, root.name, root.description, []⟩], []⟩,
        cl₁._current_id, [(root.entity_id, cs)], [root]⟩ := by
    refine ⟨⟨rfl, rfl, by simp, by simp, ?_, ?_, ?_, ?_, ?_, by simp⟩, ?_, ?_⟩
    · intro p hp
      rw [List.mem_singleton] at hp
      subst hp
      refine ⟨root, ⟨cs, root.name, root.description, []⟩, ?_, hgetcg, rfl, rfl⟩
      show cl.initial_graph.get_entity root.entity_id = some root
      rw [hrootid]
      exact hroot
    · intro j hj
      have hj' : j = cs := by
        rcases List.mem_map.mp hj with ⟨e, he, heq⟩
        rw [List.mem_singleton] at he
        subst he
        exact heq.symm
      subst hj'
      exact hfig
    · intro p hp
      rw [List.mem_singleton] at hp
      subst hp
      show Reaches cl.initial_graph cl.initial_graph.start root.entity_id
      rw [hrootid]
      exact Relation.ReflTransGen.refl
    · intro e he
      rw [List.mem_singleton] at he
      subst he
      exact (EntityGraph.get_entity_eq_some hroot).1
    · intro e he
      rw [List.mem_singleton] at he
      subst he
      simp
    · intro a ha hq e hge c hc
      exfalso
      apply hq
      simpa using ha
    · intro cu cv
      constructor
      · rintro ⟨e, he, heid, hvch⟩
        rw [List.mem_singleton] at he
        subst he
        cases hvch
      · rintro ⟨u, v, hu, hv, hnq, he⟩
        exfalso
        apply hnq
        have := lookupV_mem_keys hu
        simpa using this
  have hfuel : ([root] : List Entity).length +
      (cl.initial_graph.ids.toFinset \
        ([(root.entity_id, cs)].map Prod.fst).toFinset).card
      ≤ fuelBound cl.initial_graph := by
    have h1 : (cl.initial_graph.ids.toFinset \
        ([(root.entity_id, cs)].map Prod.fst).toFinset).card ≤
        cl.initial_graph.ids.toFinset.card :=
      Finset.card_le_card Finset.sdiff_subset
    have h2 : cl.initial_graph.ids.toFinset.card ≤
        cl.initial_graph.ids.length :=
      List.toFinset_card_le _
    have h3 : cl.initial_graph.ids.length = cl.initial_graph.entities.length := by
      simp [EntityGraph.ids]
    unfold fuelBound
    simp only [List.length_singleton]
    omega
  rcases bfsLoop_spec cl.initial_graph hV (fuelBound cl.initial_graph)
      ⟨cl.initial_graph, ⟨cs, [⟨cs, root.name, root.description, []⟩], []⟩,
        cl₁._current_id, [(root.entity_id, cs)], [root]⟩ hInvInit hfuel with
    ⟨st', hrun, hInv', hq', tail, hv'⟩
  have hgs : cl.initial_graph.get_start = some root := hroot
  have hcf : cloneFull cl = bfsLoop (fuelBound cl.initial_graph)
      ⟨cl.initial_graph, ⟨cs, [⟨cs, root.name, root.description, []⟩], []⟩,
        cl₁._current_id, [(root.entity_id, cs)], [root]⟩ := by
    simp only [cloneFull, hgs, hgen, hae]
  refine ⟨st', ?_, hInv', hq', ⟨cs, tail, ?_⟩⟩
  · rw [hcf]
    exact hrun
  · rw [hv']
    show (root.entity_id, cs) :: tail = (cl.initial_graph.start, cs) :: tail
    rw [hrootid]

/-- At loop completion the visited keys are exactly the ids reachable
from the start. -/
theorem cloneInv_keys_iff_reaches (ig : EntityGraph) (hN : ig.ids.Nodup)
    {st : BfsState} (hInv : CloneInv ig st) (hq : st.queue = [])
    (hstartmem : ig.start ∈ st.visited.map Prod.fst) :
    ∀ a, a ∈ st.visited.map Prod.fst ↔ Reaches ig ig.start a := by
  intro a
  constructor
  · intro ha
    rcases List.mem_map.mp ha with ⟨p, hp, hpe⟩
    have hr := hInv.reach p hp
    rw [hpe] at hr
    exact hr
  · intro hr
    induction hr with
    | refl => exact hstartmem
    | tail hr' hstep ih =>
      rename_i b c
      rcases hstep with ⟨e, hem, heid, hcch⟩
      have hge : ig.get_entity b = some e := by
        have h0 := EntityGraph.get_entity_of_mem hN hem
        rw [heid] at h0
        exact h0
      exact hInv.closure b ih (by rw [hq]; simp) e hge c hcch

/-- Successful `cloneFull` runs on a valid graph satisfy the full
invariant, end with an empty queue, and map the start id first. -/
theorem cloneFull_ok_inv {cl : EntityCloner} {st : BfsState}
    (hV : cl.initial_graph.Valid) (hcf : cloneFull cl = .ok st) :
    CloneInv cl.initial_graph st ∧ st.queue = [] ∧
      ∃ i tail, st.visited = (cl.initial_graph.start, i) :: tail := by
  have hstart : cl.initial_graph.has_entity cl.initial_graph.start = true := by
    by_contra hc
    have hc' : cl.initial_graph.get_start = none := by
      unfold EntityGraph.get_start
      rw [EntityGraph.get_entity_eq_none_iff]
      intro hmem
      exact hc (EntityGraph.has_entity_iff.mpr hmem)
    unfold cloneFull at hcf
    rw [hc'] at hcf
    cases hcf
  rcases cloneFull_spec cl hV hstart with ⟨st₂, hcf₂, hInv, hq, i, tail, hvis⟩
  have hsteq : st = st₂ := by
    rw [hcf] at hcf₂
    injection hcf₂
  subst hsteq
  exact ⟨hInv, hq, i, tail, hvis⟩

/-! ### The initial graph is never modified -/

theorem cloneStep_ig_eq {st : BfsState} {current : Entity} {c : Int}
    {st' : BfsState} (h : cloneStep st current c = .ok st') :
    st'.ig = st.ig := by
  rcases cloneStep_cases h with
    ⟨cc, pc, cg₁, _, _, _, rfl⟩ |
    ⟨child, i, cl₂, pc, cg₁, cg₂, _, _, _, _, _, _, rfl⟩ <;> rfl

theorem processChildren_ig_eq :
    ∀ {cs : List Int} {st : BfsState} {current : Entity} {st' : BfsState},
      processChildren st current cs = .ok st' → st'.ig = st.ig := by
  intro cs
  induction cs with
  | nil =>
    intro st current st' h
    cases h
    rfl
  | cons c cs ih =>
    intro st current st' h
    unfold processChildren at h
    cases hc : cloneStep st current c with
    | error e => rw [hc] at h; cases h
    | ok st₁ =>
      rw [hc] at h
      rw [ih h, cloneStep_ig_eq hc]

theorem bfsLoop_ig_eq :
    ∀ {fuel : Nat} {st st' : BfsState},
      bfsLoop fuel st = .ok st' → st'.ig = st.ig := by
  intro fuel
  induction fuel with
  | zero =>
    intro st st' h
    obtain ⟨a, b, c, d, q⟩ := st
    cases q with
    | nil => cases h; rfl
    | cons x xs => cases h
  | succ fuel ih =>
    intro st st' h
    obtain ⟨a, b, c, d, q⟩ := st
    cases q with
    | nil => cases h; rfl
    | cons x xs =>
      have hstep : bfsLoop (fuel + 1) ⟨a, b, c, d, x :: xs⟩ =
          match processChildren ⟨a, b, c, d, xs⟩ x x.children with
          | .error e => .error e
          | .ok stx => bfsLoop fuel stx := rfl
      rw [hstep] at h
      cases hp : processChildren ⟨a, b, c, d, xs⟩ x x.children with
      | error e => rw [hp] at h; cases h
      | ok st₂ =>
        rw [hp] at h
        rw [ih h, processChildren_ig_eq hp]

theorem cloneFull_ig_eq {cl : EntityCloner} {st' : BfsState}
    (h : cloneFull cl = .ok st') : st'.ig = cl.initial_graph := by
  unfold cloneFull at h
  split at h
  next hgs => cases h
  next root hgs =>
    split at h
    next cs cl₁ hgen =>
      dsimp only at h
      split at h
      next e hae => cases h
      next cg₁ hae =>
        have h0 := bfsLoop_ig_eq h
        rw [h0]

/-! ### The claims -/

/-- Claim C1: for every valid graph and start, `clone_subgraph` puts the
cloned entities in one-to-one correspondence with the entities reachable
from the start (the final `visited` keys are exactly the reachable ids,
without repetition; the cloned id list is exactly the `visited` value
list, so counts agree), and each clone carries its source's name and
description, only the id differing. -/
theorem claim_C1_clone_bijection :
    ∀ (cl : EntityCloner) (st : BfsState),
      cl.initial_graph.Valid →
      cloneFull cl = .ok st →
      (∀ a, a ∈ st.visited.map Prod.fst ↔
          Reaches cl.initial_graph cl.initial_graph.start a) ∧
      st.cg.entities.length = st.visited.length ∧
      (st.visited.map Prod.fst).Nodup ∧
      st.cg.ids = st.visited.map Prod.snd ∧
      (st.visited.map Prod.snd).Nodup ∧
      (∀ p ∈ st.visited, ∃ e e',
        cl.initial_graph.get_entity p.1 = some e ∧
        st.cg.get_entity p.2 = some e' ∧
        e'.name = e.name ∧ e'.description = e.description) := by
  intro cl st hV hcf
  rcases cloneFull_ok_inv hV hcf with ⟨hInv, hq, i, tail, hvis⟩
  refine ⟨?_, ?_, hInv.keysN, hInv.lock, hInv.valsN, hInv.fidelity⟩
  · refine cloneInv_keys_iff_reaches cl.initial_graph hV.1 hInv hq ?_
    rw [hvis]
    simp
  · have h0 := congrArg List.length hInv.lock
    simpa [EntityGraph.ids] using h0

/-- Claim C1 witness: the three-entity cycle of the test suite. -/
theorem claim_C1_witness :
    igW.Valid ∧ cloneFull clW = .ok stW ∧
      (2 ∈ stW.visited.map Prod.fst ↔ Reaches igW igW.start 2) ∧
      stW.cg.entities.length = stW.visited.length ∧
      stW.cg.ids = stW.visited.map Prod.snd :=
  ⟨by decide, by decide,
    (claim_C1_clone_bijection clW stW (by decide) (by decide)).1 2,
    (claim_C1_clone_bijection clW stW (by decide) (by decide)).2.1,
    (claim_C1_clone_bijection clW stW (by decide) (by decide)).2.2.2.1⟩

/-- Claim C2: under the `visited` mapping, an initial edge `u → v` with
`u` reachable from the start exists if and only if the corresponding
cloned edge exists, and every cloned edge arises this way (no extra and
no missing edges, including converging edges and cycles). -/
theorem claim_C2_edge_isomorphism :
    ∀ (cl : EntityCloner) (st : BfsState),
      cl.initial_graph.Valid →
      cloneFull cl = .ok st →
      (∀ u v, Reaches cl.initial_graph cl.initial_graph.start u →
        (edgeIn cl.initial_graph u v ↔
          ∃ cu cv, lookupV st.visited u = some cu ∧
            lookupV st.visited v = some cv ∧ edgeIn st.cg cu cv)) ∧
      (∀ cu cv, edgeIn st.cg cu cv →
        ∃ u v, lookupV st.visited u = some cu ∧
          lookupV st.visited v = some cv ∧ edgeIn cl.initial_graph u v ∧
          Reaches cl.initial_graph cl.initial_graph.start u) := by
  intro cl st hV hcf
  rcases cloneFull_ok_inv hV hcf with ⟨hInv, hq, i, tail, hvis⟩
  have hkeys : ∀ a, a ∈ st.visited.map Prod.fst ↔
      Reaches cl.initial_graph cl.initial_graph.start a := by
    refine cloneInv_keys_iff_reaches cl.initial_graph hV.1 hInv hq ?_
    rw [hvis]
    simp
  constructor
  · intro u v hru
    have hu : u ∈ st.visited.map Prod.fst := (hkeys u).mpr hru
    rcases lookupV_some_of_mem_keys hu with ⟨cu, hcu⟩
    constructor
    · intro he
      have hrv : Reaches cl.initial_graph cl.initial_graph.start v :=
        Relation.ReflTransGen.tail hru he
      have hv : v ∈ st.visited.map Prod.fst := (hkeys v).mpr hrv
      rcases lookupV_some_of_mem_keys hv with ⟨cv, hcv⟩
      refine ⟨cu, cv, hcu, hcv, ?_⟩
      refine (hInv.edges cu cv).mpr ⟨u, v, hcu, hcv, ?_, he⟩
      rw [hq]
      simp
    · rintro ⟨cu', cv', hcu', hcv', hce⟩
      rcases (hInv.edges cu' cv').mp hce with ⟨u', v', hu', hv', _, he'⟩
      have huu : u' = u := lookupV_inj hInv.valsN hu' hcu'
      have hvv : v' = v := lookupV_inj hInv.valsN hv' hcv'
      rw [← huu, ← hvv]
      exact he'
  · intro cu cv hce
    rcases (hInv.edges cu cv).mp hce with ⟨u, v, hu, hv, _, he⟩
    refine ⟨u, v, hu, hv, he, ?_⟩
    exact (hkeys u).mp (lookupV_mem_keys hu)

/-- Claim C2 witness: in the cycle test the initial edge `3 → 1` maps to
the cloned edge `6 → 4`. -/
theorem claim_C2_witness :
    igW.Valid ∧ cloneFull clW = .ok stW ∧
      (edgeIn igW 3 1 ↔
        ∃ cu cv, lookupV stW.visited 3 = some cu ∧
          lookupV stW.visited 1 = some cv ∧ edgeIn stW.cg cu cv) :=
  ⟨by decide, by decide,
    (claim_C2_edge_isomorphism clW stW (by decide) (by decide)).1 3 1
      (Relation.ReflTransGen.tail
        (Relation.ReflTransGen.tail Relation.ReflTransGen.refl
          (show edgeIn clW.initial_graph clW.initial_graph.start 2 by decide))
        (show edgeIn clW.initial_graph 2 3 by decide))⟩

/-- Claim C3: each `generate_id` call strictly increases the counter,
stores the returned id back as the counter (so successive calls are
strictly increasing, and positive starting from the initial seed `0`),
and returns an id used neither in the initial graph nor in the current
cloned graph; consequently every id of a finished clone avoids the
initial graph. -/
theorem claim_C3_generate_id :
    ∀ cl : EntityCloner,
      cl._current_id < (cl.generate_id).1 ∧
      (cl.generate_id).2._current_id = (cl.generate_id).1 ∧
      (0 ≤ cl._current_id → 0 < (cl.generate_id).1) ∧
      cl.initial_graph.has_entity (cl.generate_id).1 = false ∧
      (∀ cg, cl.cloned_graph = some cg →
        cg.has_entity (cl.generate_id).1 = false) ∧
      (∀ st, cl.initial_graph.Valid → cloneFull cl = .ok st →
        ∀ j ∈ st.cg.ids, cl.initial_graph.has_entity j = false) := by
  intro cl
  rcases EntityCloner.generate_id_spec cl with ⟨h1, h2, h3⟩
  rcases EntityCloner.isUsed_false_elim h3 with ⟨h4, h5⟩
  refine ⟨h1, by rw [h2], fun h0 => by omega, h4, h5, ?_⟩
  intro st hV hcf
  rcases cloneFull_ok_inv hV hcf with ⟨hInv, _, _⟩
  exact hInv.disj

/-- Claim C3 witness: on the cycle test the first generated id is `4`,
fresh for the initial graph, and every cloned id avoids the initial
graph. -/
theorem claim_C3_witness :
    clW._current_id < (clW.generate_id).1 ∧
      clW.initial_graph.has_entity (clW.generate_id).1 = false ∧
      clW.initial_graph.has_entity 4 = false :=
  ⟨(claim_C3_generate_id clW).1,
   (claim_C3_generate_id clW).2.2.2.1,
   (claim_C3_generate_id clW).2.2.2.2.2 stW (by decide) (by decide)
     4 (by decide)⟩

/-- Claim C4 counterexample: an entity whose description is the empty
string serializes without the key (Python truthiness), so the rebuilt
graph carries no description and the round trip does not reproduce the
entity descriptions. -/
theorem claim_C4_roundtrip_counterexample :
    (EntityGraph.build_from_data gCE.start gCE.to_dict).map
        (fun g' => (g'.start, g'.entities)) ≠
      .ok (gCE.start, gCE.entities) := by decide

/-- Claim C4 (amended): for graphs with the class invariants, a present
start id and no empty-string descriptions, rebuilding from the
serialized record reproduces the start id and the exact entity table
(ids, names, descriptions and the edge set stored in `children`). -/
theorem claim_C4_roundtrip_amended :
    ∀ g : EntityGraph, g.Valid → g.has_entity g.start = true →
      (∀ e ∈ g.entities, e.description ≠ some "") →
      (EntityGraph.build_from_data g.start g.to_dict).map
          (fun g' => (g'.start, g'.entities)) =
        .ok (g.start, g.entities) := by
  intro g hV hs hd
  rcases EntityGraph.build_to_dict_roundtrip hV hs hd with
    ⟨g', hrun, hent, hstart⟩
  rw [hrun]
  show Except.ok (g'.start, g'.entities) = .ok (g.start, g.entities)
  rw [hent, hstart]

/-- Claim C4 witness: the three-entity graph with a real description
round-trips exactly. -/
theorem claim_C4_roundtrip_witness :
    gRT.Valid ∧ gRT.has_entity gRT.start = true ∧
      (EntityGraph.build_from_data gRT.start gRT.to_dict).map
          (fun g' => (g'.start, g'.entities)) =
        .ok (gRT.start, gRT.entities) :=
  ⟨by decide, by decide,
   claim_C4_roundtrip_amended gRT (by decide) (by decide) (by decide)⟩

/-- Claim C5: `construct_output` concatenates both serialized entity
lists and both serialized link lists and appends exactly one bridging
link per recorded start parent; for every graph produced by
`build_from_data`, `start_parents` is duplicate-free and holds exactly
the ids with an edge into the start. -/
theorem claim_C5_construct_output :
    ∀ (start : Int) (data : GraphRecord) (g cloned : EntityGraph),
      EntityGraph.build_from_data start data = .ok g →
      construct_output g cloned =
        { entities := g.to_dict.entities ++ cloned.to_dict.entities,
          links := g.to_dict.links ++ cloned.to_dict.links ++
            g.start_parents.map fun p => ⟨p, cloned.start⟩ } ∧
      g.start_parents.Nodup ∧
      (∀ p, p ∈ g.start_parents ↔ edgeIn g p g.start) := by
  intro start data g cloned hb
  rcases EntityGraph.build_from_data_shape hb with ⟨hS, _, hN, _⟩
  exact ⟨rfl, hN, hS⟩

/-- Claim C5 witness: combining the cycle test's graph with its clone;
entity `3` is the unique start parent. -/
theorem claim_C5_witness :
    EntityGraph.build_from_data 1 dataW = .ok igW ∧
      construct_output igW stW.cg =
        { entities := igW.to_dict.entities ++ stW.cg.to_dict.entities,
          links := igW.to_dict.links ++ stW.cg.to_dict.links ++
            igW.start_parents.map fun p => ⟨p, stW.cg.start⟩ } ∧
      igW.start_parents.Nodup ∧
      (3 ∈ igW.start_parents ↔ edgeIn igW 3 igW.start) :=
  ⟨by decide,
   (claim_C5_construct_output 1 dataW igW stW.cg (by decide)).1,
   (claim_C5_construct_output 1 dataW igW stW.cg (by decide)).2.1,
   (claim_C5_construct_output 1 dataW igW stW.cg (by decide)).2.2 3⟩

/-- Claim C6: `add_entity` fails with the duplicate-entity error exactly
when the id is already present (otherwise it inserts the new entity),
and `add_link` fails with the unknown-entity error exactly when an
endpoint is absent (source checked first); in the embedding a failing
call returns only the error, so the graph value is left untouched. -/
theorem claim_C6_add_ops_errors :
    ∀ (g : EntityGraph) (id f t : Int) (n : String) (d : Option String),
      (g.add_entity id n d = .error (.duplicateEntity id) ↔
        g.has_entity id = true) ∧
      (g.has_entity id = false →
        g.add_entity id n d =
          .ok { g with entities := g.entities ++ [⟨id, n, d, []⟩] }) ∧
      (g.has_entity f = false →
        g.add_link f t = .error (.unknownEntity f)) ∧
      (g.has_entity f = true → g.has_entity t = false →
        g.add_link f t = .error (.unknownEntity t)) ∧
      ((∃ g', g.add_link f t = .ok g') ↔
        (g.has_entity f = true ∧ g.has_entity t = true)) := by
  intro g id f t n d
  exact ⟨EntityGraph.add_entity_error_iff,
    fun h => EntityGraph.add_entity_ok h,
    fun hf => EntityGraph.add_link_error_src hf,
    fun hf ht => EntityGraph.add_link_error_dst hf ht,
    EntityGraph.add_link_isOk_iff⟩

/-- Claim C6 witness: duplicate insertion of id `1` and links touching
the absent id `9` fail as specified. -/
theorem claim_C6_witness :
    igW.has_entity 1 = true ∧
      igW.add_entity 1 "Name9" none = .error (.duplicateEntity 1) ∧
      igW.has_entity 9 = false ∧
      igW.add_link 9 1 = .error (.unknownEntity 9) ∧
      igW.add_link 1 9 = .error (.unknownEntity 9) :=
  ⟨by decide,
   (claim_C6_add_ops_errors igW 1 9 1 "Name9" none).1.mpr (by decide),
   by decide,
   (claim_C6_add_ops_errors igW 1 9 1 "Name9" none).2.2.1 (by decide),
   (claim_C6_add_ops_errors igW 1 1 9 "Name9" none).2.2.2.1 (by decide)
     (by decide)⟩

/-- Claim C7: `build_from_data` adds all entities and then all links,
propagating their errors; assuming the supplied entity ids are distinct
(so the entity phase itself cannot fail), it fails with the
missing-start error exactly when the start id is not among the supplied
entities. -/
theorem claim_C7_missing_start :
    ∀ (start : Int) (data : GraphRecord),
      (data.entities.map EntityRecord.entity_id).Nodup →
      (EntityGraph.build_from_data start data =
          .error (.missingStart start) ↔
        start ∉ data.entities.map EntityRecord.entity_id) := by
  intro start data hN
  have hN' : ((⟨start, [], []⟩ : EntityGraph).ids ++
      data.entities.map EntityRecord.entity_id).Nodup := by
    have h0 : (⟨start, [], []⟩ : EntityGraph).ids = [] := rfl
    rw [h0, List.nil_append]
    exact hN
  rcases EntityGraph.addEntities_ok hN' with ⟨g₁, hrun, hent, _, _⟩
  have hids : g₁.ids = data.entities.map EntityRecord.entity_id := by
    rw [EntityGraph.ids, hent]
    show (([] : List Entity) ++ _).map Entity.entity_id = _
    rw [List.nil_append, List.map_map]
    rfl
  constructor
  · intro h
    by_contra hmem
    have hhas : g₁.has_entity start = true :=
      EntityGraph.has_entity_iff.mpr (by rw [hids]; exact hmem)
    unfold EntityGraph.build_from_data at h
    rw [hrun] at h
    have h' : EntityGraph.addLinks g₁ data.links =
        .error (.missingStart start) := by
      simpa [hhas] using h
    rcases EntityGraph.addLinks_error h' with ⟨j, hj⟩
    cases hj
  · intro hmem
    have hhas : g₁.has_entity start = false :=
      EntityGraph.has_entity_false_iff.mpr (by rw [hids]; exact hmem)
    unfold EntityGraph.build_from_data
    rw [hrun]
    simp [hhas]

/-- Claim C7 witness: building the cycle data with absent start id `7`
fails with the missing-start error. -/
theorem claim_C7_witness :
    (dataW.entities.map EntityRecord.entity_id).Nodup ∧
      EntityGraph.build_from_data 7 dataW = .error (.missingStart 7) :=
  ⟨by decide, (claim_C7_missing_start 7 dataW (by decide)).mpr (by decide)⟩

/-- Claim C8: on a graph satisfying the class invariants whose start id
is bound in the entity table, `clone_subgraph` never raises: no error
value is ever returned (in particular neither the duplicate-entity nor
the unknown-entity branch is reached). -/
theorem claim_C8_clone_no_failure :
    ∀ cl : EntityCloner, cl.initial_graph.Valid →
      cl.initial_graph.has_entity cl.initial_graph.start = true →
      ∀ e : CloneErr, cl.clone_subgraph ≠ .error e := by
  intro cl hV hs e
  rcases cloneFull_spec cl hV hs with ⟨st, hcf, _, _, _⟩
  unfold EntityCloner.clone_subgraph
  rw [hcf]
  intro h
  cases h

/-- Claim C8 witness: cloning the cycle test graph returns no error. -/
theorem claim_C8_witness :
    igW.Valid ∧ igW.has_entity igW.start = true ∧
      clW.clone_subgraph ≠ .error (.unknownEntity 5) :=
  ⟨by decide, by decide,
   claim_C8_clone_no_failure clW (by decide) (by decide) (.unknownEntity 5)⟩

/-- Claim C9: on a valid graph with a present start the breadth-first
loop terminates within its fuel bound — the run never reports fuel
exhaustion, the final queue is empty, and the visited keys are
duplicate-free (each entity was enqueued and expanded at most once). -/
theorem claim_C9_termination :
    ∀ cl : EntityCloner, cl.initial_graph.Valid →
      cl.initial_graph.has_entity cl.initial_graph.start = true →
      cloneFull cl ≠ .error .outOfFuel ∧
      ∃ st, cloneFull cl = .ok st ∧ st.queue = [] ∧
        (st.visited.map Prod.fst).Nodup := by
  intro cl hV hs
  rcases cloneFull_spec cl hV hs with ⟨st, hcf, hInv, hq, _⟩
  constructor
  · rw [hcf]
    intro h
    cases h
  · exact ⟨st, hcf, hq, hInv.keysN⟩

/-- Claim C9 witness: the cycle test run terminates without fuel
exhaustion. -/
theorem claim_C9_witness :
    igW.Valid ∧ igW.has_entity igW.start = true ∧
      cloneFull clW ≠ .error .outOfFuel :=
  ⟨by decide, by decide,
   (claim_C9_termination clW (by decide) (by decide)).1⟩

/-- Claim C10: `clone_subgraph` leaves the initial graph untouched: the
returned cloner carries the very same initial graph value (same start,
entity table with all names, descriptions and children, and the same
`start_parents`). -/
theorem claim_C10_frame :
    ∀ (cl : EntityCloner) (g : EntityGraph) (cl' : EntityCloner),
      cl.clone_subgraph = .ok (g, cl') →
      cl'.initial_graph = cl.initial_graph := by
  intro cl g cl' h
  unfold EntityCloner.clone_subgraph at h
  cases hcf : cloneFull cl with
  | error e => rw [hcf] at h; cases h
  | ok st =>
    rw [hcf] at h
    simp only [Except.map] at h
    injection h with hpair
    have hcl' : cl' = (⟨st.ig, some st.cg, st.cur⟩ : EntityCloner) :=
      (congrArg Prod.snd hpair).symm
    rw [hcl']
    show st.ig = cl.initial_graph
    exact cloneFull_ig_eq hcf

/-- Claim C10 witness: after cloning the cycle test graph, the cloner's
initial graph is unchanged. -/
theorem claim_C10_witness :
    (⟨igW, some stW.cg, 6⟩ : EntityCloner).initial_graph =
      clW.initial_graph :=
  claim_C10_frame clW stW.cg ⟨igW, some stW.cg, 6⟩ (by decide)
